import Mathlib

/-!
The static blog generator of coyove/blog (`blog.go`)

A shallow embedding of `src/blog.go` and the properties of its metadata
extractor (`parse`), snapshot cache (the `filepath.Walk` callback), index
builder (`addReverse`) and pagination renderer (`renderPages`).

Modelling conventions.

* A Go `string` is a `List Char` (the code points of a valid UTF-8 text).  The
  delimiters the program looks at (`<!--`, `:`, `-->`, `\r\n`, `.html`, `raw/`)
  are ASCII, so offsets counted in code points and in bytes cut the text at the
  same places.
* `map[string]bool` (the tag set) is the list of its keys, without duplicates;
  `map[string][]*entry` is an association list with unique keys.
* The filesystem under `docs/blog` is a finite map from a snapshot path to the
  record stored there; `encoding/json` round-trips an `entry` field for field.
* `time.Now()` is an input: the two readings taken by `parse`.
* `math.Ceil(float64(count) / 5)` and `math.Min(float64(i+5), float64(count))`
  are computed on naturals: the `float64` detour is exact for every length
  below `2^53`, and no slice is that long.
-/

namespace Blog

/-! ## Constants and the entry record (blog.go 20-34) -/

def ARTICLES_PER_PAGE : Nat := 5

def DEFAULT_AUTHOR : List Char := "admin".toList

/-- The `entry` struct.  `Tags` lists the keys of the Go map. -/
structure entry where
  Title : List Char
  Author : List Char
  Tags : List (List Char)
  Date : List Char
  TStamp : Int
  Hash : List Char
  URI : List Char
  Content : List Char
deriving DecidableEq, Repr

/-! ## Library functions used by `parse` -/

/-- Go `unicode.IsSpace`: the Latin-1 cases and the `White_Space` table. -/
def IsSpace (c : Char) : Bool :=
  let n := c.toNat
  (0x09 ≤ n && n ≤ 0x0D) || n == 0x20 || n == 0x85 || n == 0xA0 || n == 0x1680
    || (0x2000 ≤ n && n ≤ 0x200A) || n == 0x2028 || n == 0x2029 || n == 0x202F
    || n == 0x205F || n == 0x3000

/-- Go `strings.TrimSpace`: drop leading and trailing white space. -/
def TrimSpace (s : List Char) : List Char :=
  ((s.dropWhile IsSpace).reverse.dropWhile IsSpace).reverse

/-- Go `strings.HasSuffix`. -/
def HasSuffix (s suffix : List Char) : Bool := suffix.isSuffixOf s

/-- Go `strings.Replace(s, "\r\n", "\n", -1)`: every CRLF, left to right,
becomes LF. -/
def ReplaceCRLF : List Char → List Char
  | [] => []
  | c :: s =>
    match s with
    | [] => [c]
    | d :: t => if c = '\r' ∧ d = '\n' then '\n' :: ReplaceCRLF t else c :: ReplaceCRLF (d :: t)

/-! ### The regular expression `reTag` (blog.go 36)

`<!--([\s\S]+?):([\s\S]*?)-->` under Go's leftmost-first semantics.  `[\s\S]`
accepts every character; a lazy quantifier first tries to go on with the rest
of the pattern and takes one more character only when that fails. -/

/-- The tail `([\s\S]*?)-->` anchored at the head of the text: the captured
value and the text left after the closing delimiter. -/
def matchValue : List Char → Option (List Char × List Char)
  | [] => none
  | c :: s =>
    if "-->".toList.isPrefixOf (c :: s) then some ([], s.drop 2)
    else
      match matchValue s with
      | some (v, rest) => some (c :: v, rest)
      | none => none

/-- The part `[\s\S]*?:([\s\S]*?)-->` that follows the first (mandatory)
character of the key: the remaining key characters, the value, the text left. -/
def matchKeyRest : List Char → Option (List Char × List Char × List Char)
  | [] => none
  | c :: s =>
    match (if c = ':' then matchValue s else none) with
    | some (v, rest) => some ([], v, rest)
    | none =>
      match matchKeyRest s with
      | some (k, v, rest) => some (c :: k, v, rest)
      | none => none

/-- The whole pattern anchored at the head of the text: submatch 1 (the key),
submatch 2 (the value) and the text after the match. -/
def reTagAt (s : List Char) : Option (List Char × List Char × List Char) :=
  if "<!--".toList.isPrefixOf s then
    match s.drop 4 with
    | [] => none
    | c :: t =>
      match matchKeyRest t with
      | some (k, v, rest) => some (c :: k, v, rest)
      | none => none
  else none

/-- The scan of `FindAllStringSubmatch`: try the pattern at the head; on a
match record it and go on after it, otherwise move one character on.  The
first argument bounds the number of steps. -/
def findAllFrom : Nat → List Char → List (List Char × List Char)
  | 0, _ => []
  | _ + 1, [] => []
  | n + 1, c :: s =>
    match reTagAt (c :: s) with
    | some (k, v, rest) => (k, v) :: findAllFrom n rest
    | none => findAllFrom n s

/-- Go `reTag.FindAllStringSubmatch(html, -1)`: the submatches `(m[1], m[2])`
of the successive non-overlapping matches, in order of occurrence.  Every
match has its three elements, so the guard `len(m) != 3` of `parse` never
fires. -/
def FindAllStringSubmatch (html : List Char) : List (List Char × List Char) :=
  findAllFrom html.length html

/-! ### SHA-1 (`crypto/sha1`) and `%x` formatting -/

/-- The bytes of one code point in a Go string (UTF-8). -/
def utf8Bytes (c : Char) : List Nat :=
  let n := c.toNat
  if n < 0x80 then [n]
  else if n < 0x800 then [0xC0 + n / 64, 0x80 + n % 64]
  else if n < 0x10000 then [0xE0 + n / 4096, 0x80 + n / 64 % 64, 0x80 + n % 64]
  else [0xF0 + n / 262144, 0x80 + n / 4096 % 64, 0x80 + n / 64 % 64, 0x80 + n % 64]

/-- Go `[]byte(s)`. -/
def toBytes (s : List Char) : List Nat := s.flatMap utf8Bytes

def rotl32 (x k : Nat) : Nat := ((x <<< k) ||| (x >>> (32 - k))) % 2 ^ 32

/-- The `k` low-order bytes of `x`, most significant first. -/
def beBytes : Nat → Nat → List Nat
  | 0, _ => []
  | k + 1, x => (x / 256 ^ k) % 256 :: beBytes k x

def sha1Pad (msg : List Nat) : List Nat :=
  let l := msg.length
  msg ++ [0x80] ++ List.replicate ((119 - l % 64) % 64) 0 ++ beBytes 8 (8 * l)

def beWord (b0 b1 b2 b3 : Nat) : Nat := ((b0 * 256 + b1) * 256 + b2) * 256 + b3

def blockWords : Nat → List Nat → List Nat
  | 0, _ => []
  | k + 1, b0 :: b1 :: b2 :: b3 :: rest => beWord b0 b1 b2 b3 :: blockWords k rest
  | _ + 1, _ => []

/-- Message schedule; `ws` holds the words computed so far, newest first. -/
def schedule : Nat → List Nat → List Nat
  | 0, ws => ws
  | k + 1, ws =>
    schedule k (rotl32 (ws.getD 2 0 ^^^ ws.getD 7 0 ^^^ ws.getD 13 0 ^^^ ws.getD 15 0) 1 :: ws)

structure Sha1State where
  a : Nat
  b : Nat
  c : Nat
  d : Nat
  e : Nat
deriving DecidableEq, Repr

def sha1Round (t : Nat) (s : Sha1State) (w : Nat) : Sha1State :=
  let fk : Nat × Nat :=
    if t < 20 then ((s.b &&& s.c) ||| ((s.b ^^^ 0xFFFFFFFF) &&& s.d), 0x5A827999)
    else if t < 40 then (s.b ^^^ s.c ^^^ s.d, 0x6ED9EBA1)
    else if t < 60 then ((s.b &&& s.c) ||| (s.b &&& s.d) ||| (s.c &&& s.d), 0x8F1BBCDC)
    else (s.b ^^^ s.c ^^^ s.d, 0xCA62C1D6)
  { a := (rotl32 s.a 5 + fk.1 + s.e + fk.2 + w) % 2 ^ 32
    b := s.a
    c := rotl32 s.b 30
    d := s.c
    e := s.d }

def sha1Rounds : Nat → List Nat → Sha1State → Sha1State
  | _, [], s => s
  | t, w :: ws, s => sha1Rounds (t + 1) ws (sha1Round t s w)

def sha1Block (h : Sha1State) (block : List Nat) : Sha1State :=
  let w := (schedule 64 (blockWords 16 block).reverse).reverse
  let s := sha1Rounds 0 w h
  { a := (h.a + s.a) % 2 ^ 32
    b := (h.b + s.b) % 2 ^ 32
    c := (h.c + s.c) % 2 ^ 32
    d := (h.d + s.d) % 2 ^ 32
    e := (h.e + s.e) % 2 ^ 32 }

def sha1Blocks : Nat → Sha1State → List Nat → Sha1State
  | 0, h, _ => h
  | k + 1, h, bytes => sha1Blocks k (sha1Block h (bytes.take 64)) (bytes.drop 64)

/-- Go `sha1.Sum`: the 20-byte digest. -/
def sha1Sum (msg : List Nat) : List Nat :=
  let p := sha1Pad msg
  let h := sha1Blocks (p.length / 64)
    { a := 0x67452301, b := 0xEFCDAB89, c := 0x98BADCFE, d := 0x10325476, e := 0xC3D2E1F0 } p
  beBytes 4 h.a ++ beBytes 4 h.b ++ beBytes 4 h.c ++ beBytes 4 h.d ++ beBytes 4 h.e

/-- Go `fmt.Sprintf("%x", digest)`: two lower-case hex digits per byte. -/
def hexBytes (bs : List Nat) : List Char :=
  bs.flatMap (fun b => [Nat.digitChar (b / 16), Nat.digitChar (b % 16)])

/-! ## `parse` (blog.go 43-67) -/

/-- The two readings of `time.Now()` taken by one call of `parse`:
`UnixNano()` and `Format("Mon, 02 Jan 2006 15:04:05")`. -/
structure Clock where
  UnixNano : Int
  Formatted : List Char
deriving DecidableEq, Repr

/-- The statement `e.Tags[v] = true`. -/
def setTag (tags : List (List Char)) (v : List Char) : List (List Char) :=
  if v ∈ tags then tags else tags ++ [v]

/-- One round of the loop over the matches: the `switch` on the trimmed key. -/
def applyMarker (e : entry) (m : List Char × List Char) : entry :=
  let v := TrimSpace m.2
  let k := TrimSpace m.1
  if k = "title".toList then { e with Title := v }
  else if k = "author".toList then { e with Author := v }
  else if k = "tag".toList then { e with Tags := setTag e.Tags v }
  else e

/-- The hash line: `fmt.Sprintf("%x", sha1.Sum([]byte(html)))[:8]` after the
CRLF replacement. -/
def contentHash (html : List Char) : List Char :=
  (hexBytes (sha1Sum (toBytes (ReplaceCRLF html)))).take 8

def parse (html : List Char) (now : Clock) : entry :=
  let e0 : entry :=
    { Title := [], Author := [], Tags := [], Date := [], TStamp := 0, Hash := [], URI := [],
      Content := html }
  let e1 := (FindAllStringSubmatch html).foldl applyMarker e0
  let e2 := { e1 with Hash := contentHash html, TStamp := now.UnixNano, Date := now.Formatted }
  if e2.Author = [] then { e2 with Author := DEFAULT_AUTHOR } else e2

/-! ## The snapshot cache: the `filepath.Walk` callback (blog.go 89-130) -/

/-- The snapshot files below `docs/blog`: path of the file, record stored in
it.  `os.Stat`/`os.Open` look a path up, `os.Create` puts a new file in front. -/
abbrev Store := List (List Char × entry)

/-- The statement `json.NewDecoder(h).Decode(e)` on a snapshot written by
`json.NewEncoder(h).Encode`: the file carries all eight fields, so each string
and integer field of `e` is overwritten; `e.Tags` is a non-nil map, which the
decoder reuses, keeping its keys and storing the keys of the snapshot into it. -/
def Decode (snap e : entry) : entry :=
  { Title := snap.Title
    Author := snap.Author
    Tags := snap.Tags.foldl setTag e.Tags
    Date := snap.Date
    TStamp := snap.TStamp
    Hash := snap.Hash
    URI := snap.URI
    Content := snap.Content }

/-- The snapshot location `"docs/blog" + path[3:] + "." + e.Hash`. -/
def hpath (path : List Char) (e : entry) : List Char :=
  "docs/blog".toList ++ path.drop 3 ++ ".".toList ++ e.Hash

/-- Lines 99-121: parse the file, then either load the snapshot found at
`hpath` into the entry or write the entry there.  Returns the entry and the
store left behind. -/
def resolve (store : Store) (path html : List Char) (now : Clock) : entry × Store :=
  let e := { parse html now with URI := path.drop 4 }
  match store.lookup (hpath path e) with
  | some snap => (Decode snap e, store)
  | none => (e, (hpath path e, e) :: store)

/-! ## The index builder (blog.go 77-87, 123-128) -/

/-- A `map[string][]*entry`. -/
abbrev Grouping := List (List Char × List entry)

/-- The assignment `m[k] = v`. -/
def mapSet : Grouping → List Char → List entry → Grouping
  | [], k, v => [(k, v)]
  | (k', v') :: rest, k, v => if k' = k then (k, v) :: rest else (k', v') :: mapSet rest k v

def addReverse (m : Grouping) (k : List Char) (e : entry) : Grouping :=
  if k = [] then m
  else
    match m.lookup k with
    | none => mapSet m k [e]
    | some l => mapSet m k (l ++ [e])

/-- What `filepath.Walk` hands to the callback for one path, with the content
`ioutil.ReadFile` returns for it and the clock readings of that visit. -/
structure SourceFile where
  path : List Char
  IsDir : Bool
  html : List Char
  now : Clock
deriving DecidableEq, Repr

/-- The variables the callback updates. -/
structure WalkState where
  entries : List entry
  tagsReverse : Grouping
  authorsReverse : Grouping
  store : Store
deriving DecidableEq, Repr

/-- One call of the callback (lines 89-130).  `for tag := range e.Tags` visits
the keys in an order Go leaves open; the keys are distinct and `addReverse`
touches one key at a time, so the order does not show in the map
(`lookup_foldl_addReverse_perm`). -/
def visit (st : WalkState) (f : SourceFile) : WalkState :=
  if f.IsDir || !HasSuffix f.path ".html".toList then st
  else
    let r := resolve st.store f.path f.html f.now
    { entries := st.entries ++ [r.1]
      tagsReverse := r.1.Tags.foldl (fun m tag => addReverse m tag r.1) st.tagsReverse
      authorsReverse := addReverse st.authorsReverse r.1.Author r.1
      store := r.2 }

/-- The whole walk, in discovery order. -/
def walk (store : Store) (files : List SourceFile) : WalkState :=
  files.foldl visit { entries := [], tagsReverse := [], authorsReverse := [], store := store }

/-! ## The pagination renderer (blog.go 137-184) -/

/-- The comparison handed to `sort.Slice`. -/
def less (a b : entry) : Bool := decide (a.TStamp > b.TStamp)

/-- Insert `x` into a slice ordered by `less`. -/
def insertByLess (x : entry) : List entry → List entry
  | [] => [x]
  | y :: ys => if less y x then y :: insertByLess x ys else x :: y :: ys

/-- Go `sort.Slice(entries, less)`.  The library promises a rearrangement
ordered by `less` and leaves the order of ties open; this is one such sort. -/
def sortSlice (entries : List entry) : List entry := entries.foldr insertByLess []

/-- The template payload `tPayload`. -/
structure tPayload where
  Title : List Char
  CurPage : Int
  TotalPages : Int
  PrevPageLink : List Char
  NextPageLink : List Char
  Articles : List entry
  ArticleEntered : Bool
  Tags : Grouping
deriving DecidableEq, Repr

def genPageLink (idx : Int) : List Char :=
  if idx ≤ 1 then "index.html".toList
  else "index".toList ++ Nat.toDigits 10 idx.toNat ++ ".html".toList

/-- The `for i := 0; i < count; i += ARTICLES_PER_PAGE` loop from index `i`
on, with the payload variable as it stands; each round yields the file written
(`os.Create(path)`, `tmpl.Execute(idx, tPayload)`).  The first argument bounds
the number of rounds. -/
def renderLoop (entries : List entry) (diskPath title : List Char) :
    Nat → Nat → tPayload → List (List Char × tPayload)
  | 0, _, _ => []
  | fuel + 1, i, p =>
    if i < entries.length then
      let cur : Int := ((i / ARTICLES_PER_PAGE + 1 : Nat) : Int)
      let stop := min (i + ARTICLES_PER_PAGE) entries.length
      let p1 : tPayload :=
        { p with
          CurPage := cur
          Title := title
          PrevPageLink := genPageLink (cur - 1)
          NextPageLink := genPageLink (cur + 1)
          Articles := (entries.take stop).drop i }
      if !HasSuffix diskPath ".html".toList then
        (diskPath ++ genPageLink cur, p1) :: renderLoop entries diskPath title fuel
          (i + ARTICLES_PER_PAGE) p1
      else
        let p2 := { p1 with ArticleEntered := true }
        (diskPath, p2) :: renderLoop entries diskPath title fuel (i + ARTICLES_PER_PAGE) p2
    else []

/-- What one call of `renderPages` leaves behind: the caller's slice (sorted
in place), the page count stored in the payload, the files written in order. -/
structure Rendered where
  entries : List entry
  TotalPages : Int
  writes : List (List Char × tPayload)
deriving DecidableEq, Repr

/-- The closure `renderPages`; `tagsReverse` is the captured map as the
template sees it.  `TotalPages` is `int(math.Ceil(float64(count) / 5))`, here
the ceiling of the exact quotient. -/
def renderPages (tagsReverse : Grouping) (entries : List entry) (diskPath title : List Char) :
    Rendered :=
  let sorted := sortSlice entries
  let count := sorted.length
  let p0 : tPayload :=
    { Title := [], CurPage := 0
      TotalPages := (((count + ARTICLES_PER_PAGE - 1) / ARTICLES_PER_PAGE : Nat) : Int)
      PrevPageLink := [], NextPageLink := [], Articles := [], ArticleEntered := false
      Tags := tagsReverse }
  { entries := sorted
    TotalPages := p0.TotalPages
    writes := renderLoop sorted diskPath title count 0 p0 }

/-! ## Auxiliary definitions used in the statements -/

/-- The payload of the page with 0-based index `k`, written out field by field. -/
def pageAt (entries : List entry) (title : List Char) (entered : Bool) (p : tPayload)
    (k : Nat) : tPayload :=
  { Title := title
    CurPage := ((k + 1 : Nat) : Int)
    TotalPages := p.TotalPages
    PrevPageLink := genPageLink (((k + 1 : Nat) : Int) - 1)
    NextPageLink := genPageLink (((k + 1 : Nat) : Int) + 1)
    Articles := (entries.take (min (k * 5 + 5) entries.length)).drop (k * 5)
    ArticleEntered := entered
    Tags := p.Tags }

/-- The path of the file of the page with 0-based index `k`. -/
def pathAt (diskPath : List Char) (k : Nat) : List Char :=
  if HasSuffix diskPath ".html".toList then diskPath
  else diskPath ++ genPageLink (((k + 1 : Nat) : Int))

/-- The text with every LF rewritten as CRLF. -/
def lfToCrlf (t : List Char) : List Char :=
  t.flatMap (fun c => if c = '\n' then ['\r', '\n'] else [c])

/-- The text after the first colon, when there is a colon. -/
def afterColon : List Char → Option (List Char)
  | [] => none
  | c :: t => if c = ':' then some t else afterColon t

/-- What follows an opener `<!--` completes a marker: one character, then a
colon somewhere, then a `-->` somewhere after the first such colon. -/
def closesMarker : List Char → Bool
  | [] => false
  | _ :: t =>
    match afterColon t with
    | some u => decide ("-->".toList <:+: u)
    | none => false

/-- Every `<!--` in the text is followed, inside the text, by the rest of a
marker. -/
def openersClosed : List Char → Bool
  | [] => true
  | c :: s => (!("<!--".toList.isPrefixOf (c :: s)) || closesMarker (s.drop 3)) && openersClosed s

/-- The trimmed value of the last marker whose trimmed key is `key`; empty
when there is no such marker. -/
def lastValue (key : List Char) (ms : List (List Char × List Char)) : List Char :=
  match (ms.filter (fun m => decide (TrimSpace m.1 = key))).getLast? with
  | some m => TrimSpace m.2
  | none => []

/-- The keys `parse` recognises. -/
def recognised (m : List Char × List Char) : Bool :=
  decide (TrimSpace m.1 = "title".toList) || decide (TrimSpace m.1 = "author".toList)
    || decide (TrimSpace m.1 = "tag".toList)

/-- A snapshot as an earlier run leaves it for the text "one\ntwo". -/
def sampleSnapshot : entry :=
  { Title := "Old".toList, Author := "bob".toList, Tags := ["go".toList], Date := "Mon".toList
    TStamp := 1, Hash := "d9822126".toList, URI := "a.html".toList
    Content := "one\ntwo".toList }

/-- A store holding `sampleSnapshot` at the location of `raw/a.html`. -/
def sampleStore : Store := [("docs/blog/a.html.d9822126".toList, sampleSnapshot)]

/-- A grouping `m` indexes the entries `es` by the keys `has` attaches to them:
each non-empty key carried by some entry maps to the entries carrying it, in
the order of `es`, and no other key is present. -/
def Indexes (has : entry → List Char → Bool) (m : Grouping) (es : List entry) : Prop :=
  ∀ k : List Char, m.lookup k =
    if k ≠ [] ∧ ∃ e ∈ es, has e k = true then some (es.filter (fun e => has e k)) else none

/-- The entries of the files in discovery order: directories and paths not
ending in ".html" are passed over; each other file is resolved against the
store as the files before it have left it. -/
def resolvedEntries : Store → List SourceFile → List entry
  | _, [] => []
  | store, f :: fs =>
    if f.IsDir || !HasSuffix f.path ".html".toList then resolvedEntries store fs
    else
      (resolve store f.path f.html f.now).1 ::
        resolvedEntries (resolve store f.path f.html f.now).2 fs

/-- A small source tree: the root directory, two articles and a text file. -/
def sampleFiles : List SourceFile :=
  [ ⟨"raw".toList, true, [], ⟨0, []⟩⟩,
    ⟨"raw/a.html".toList, false, "<!--tag:go--><!--tag: -->A".toList, ⟨1, "Mon".toList⟩⟩,
    ⟨"raw/notes.txt".toList, false, "<!--tag:go-->".toList, ⟨2, "Mon".toList⟩⟩,
    ⟨"raw/b.html".toList, false,
      "<!--author:bob--><!--tag:lean--><!--tag:go-->B".toList, ⟨3, "Tue".toList⟩⟩ ]

/-- A grouping shown by the uri of its entries. -/
def groupingURIs (m : Grouping) : List (List Char × List (List Char)) :=
  m.map (fun kv => (kv.1, kv.2.map (fun e => e.URI)))

/-- The invariant of the walk: both groupings index the entries collected so
far, and their keys are unique. -/
def WalkInv (st : WalkState) : Prop :=
  Indexes (fun e k => decide (k ∈ e.Tags)) st.tagsReverse st.entries ∧
  Indexes (fun e k => decide (e.Author = k)) st.authorsReverse st.entries ∧
  (st.tagsReverse.map Prod.fst).Nodup ∧ (st.authorsReverse.map Prod.fst).Nodup

/-- The payload variable as it stands when the loop is entered. -/
def payload0 (tags : Grouping) (count : Nat) : tPayload :=
  { Title := [], CurPage := 0
    TotalPages := (((count + 4) / 5 : Nat) : Int)
    PrevPageLink := [], NextPageLink := [], Articles := [], ArticleEntered := false
    Tags := tags }

/-! ## Pagination: the loop in closed form -/

theorem renderLoop_eq (entries : List entry) (diskPath title : List Char) :
    ∀ (fuel j : Nat) (p : tPayload), (entries.length + 4) / 5 - j ≤ fuel →
      renderLoop entries diskPath title fuel (j * 5) p =
        (List.range' j ((entries.length + 4) / 5 - j)).map (fun k =>
          (pathAt diskPath k,
            pageAt entries title (p.ArticleEntered || HasSuffix diskPath ".html".toList) p k)) := by
  intro fuel
  induction fuel with
  | zero =>
    intro j p h
    have h0 : (entries.length + 4) / 5 - j = 0 := by omega
    simp [renderLoop, h0]
  | succ fuel ih =>
    intro j p h
    by_cases hlt : j * 5 < entries.length
    · have hm : (entries.length + 4) / 5 - j = ((entries.length + 4) / 5 - (j + 1)) + 1 := by omega
      have hf : (entries.length + 4) / 5 - (j + 1) ≤ fuel := by omega
      have hstep : j * 5 + ARTICLES_PER_PAGE = (j + 1) * 5 := by simp [ARTICLES_PER_PAGE]; ring
      have hcur : j * 5 / ARTICLES_PER_PAGE + 1 = j + 1 := by simp [ARTICLES_PER_PAGE]
      rw [hm, List.range'_succ, List.map_cons]
      unfold renderLoop
      rw [if_pos hlt]
      by_cases hs : HasSuffix diskPath ".html".toList = true
      · have hs' : HasSuffix diskPath ['.', 'h', 't', 'm', 'l'] = true := hs
        simp only [hs, Bool.not_true, Bool.false_eq_true, if_false, hstep, hcur]
        rw [ih (j + 1) _ hf]
        simp [pathAt, pageAt, hs', ARTICLES_PER_PAGE, Nat.add_mul]
      · simp only [Bool.not_eq_true] at hs
        have hs' : HasSuffix diskPath ['.', 'h', 't', 'm', 'l'] = false := hs
        simp only [hs, Bool.not_false, if_true, hstep, hcur]
        rw [ih (j + 1) _ hf]
        simp [pathAt, pageAt, hs', ARTICLES_PER_PAGE, Nat.add_mul]
    · have h0 : (entries.length + 4) / 5 - j = 0 := by omega
      unfold renderLoop
      rw [if_neg hlt, h0]
      simp

theorem renderPages_writes (tags : Grouping) (es : List entry) (diskPath title : List Char) :
    (renderPages tags es diskPath title).writes =
      (List.range (((sortSlice es).length + 4) / 5)).map (fun k =>
        (pathAt diskPath k,
          pageAt (sortSlice es) title (HasSuffix diskPath ".html".toList)
            (payload0 tags (sortSlice es).length) k)) := by
  have h := renderLoop_eq (sortSlice es) diskPath title (sortSlice es).length 0
    (payload0 tags (sortSlice es).length) (by omega)
  simp only [Nat.zero_mul, Nat.sub_zero, payload0, Bool.false_or] at h
  simp only [renderPages, ARTICLES_PER_PAGE, payload0]
  rw [List.range_eq_range']
  exact h

/-! ## Sorting -/

theorem insertByLess_perm (x : entry) (l : List entry) : (insertByLess x l).Perm (x :: l) := by
  induction l with
  | nil => simp [insertByLess]
  | cons y ys ih =>
    unfold insertByLess
    split
    · exact (List.Perm.cons y ih).trans (List.Perm.swap x y ys)
    · exact List.Perm.refl _

theorem sortSlice_perm (l : List entry) : (sortSlice l).Perm l := by
  induction l with
  | nil => simp [sortSlice]
  | cons x xs ih =>
    have h : sortSlice (x :: xs) = insertByLess x (sortSlice xs) := rfl
    rw [h]
    exact (insertByLess_perm x _).trans (List.Perm.cons x ih)

theorem sortSlice_length (l : List entry) : (sortSlice l).length = l.length :=
  (sortSlice_perm l).length_eq

theorem insertByLess_sorted (x : entry) (l : List entry)
    (h : l.Pairwise (fun a b => b.TStamp ≤ a.TStamp)) :
    (insertByLess x l).Pairwise (fun a b => b.TStamp ≤ a.TStamp) := by
  induction l with
  | nil => simp [insertByLess]
  | cons y ys ih =>
    rw [List.pairwise_cons] at h
    unfold insertByLess
    split
    · rename_i hlt
      have hyx : x.TStamp ≤ y.TStamp := by
        simp only [less, decide_eq_true_eq] at hlt
        omega
      rw [List.pairwise_cons]
      refine ⟨?_, ih h.2⟩
      intro b hb
      rcases List.mem_cons.mp ((insertByLess_perm x ys).mem_iff.mp hb) with hb | hb
      · rw [hb]; exact hyx
      · exact h.1 b hb
    · rename_i hlt
      have hyx : y.TStamp ≤ x.TStamp := by
        simp only [less, decide_eq_true_eq] at hlt
        omega
      rw [List.pairwise_cons]
      refine ⟨?_, List.pairwise_cons.mpr h⟩
      intro b hb
      simp only [List.mem_cons] at hb
      rcases hb with hb | hb
      · rw [hb]; exact hyx
      · exact le_trans (h.1 b hb) hyx

theorem sortSlice_sorted (l : List entry) :
    (sortSlice l).Pairwise (fun a b => b.TStamp ≤ a.TStamp) := by
  induction l with
  | nil => simp [sortSlice]
  | cons x xs ih =>
    have h : sortSlice (x :: xs) = insertByLess x (sortSlice xs) := rfl
    rw [h]
    exact insertByLess_sorted x _ ih

/-! ## Arithmetic of the page count and of the slices -/

theorem ceil_div_five_int (n : Nat) : ⌈((n : ℚ) / 5)⌉ = (((n + 4) / 5 : Nat) : Int) := by
  have h1 : n ≤ 5 * ((n + 4) / 5) := by omega
  have h2 : 5 * ((n + 4) / 5) < n + 5 := by omega
  generalize (n + 4) / 5 = m at h1 h2
  have h1q : (n : ℚ) ≤ 5 * (m : ℚ) := by exact_mod_cast h1
  have h2q : 5 * (m : ℚ) < (n : ℚ) + 5 := by exact_mod_cast h2
  rw [Int.ceil_eq_iff]
  simp only [Int.cast_natCast]
  constructor
  · linarith
  · linarith

theorem ceil_div_five_nat (n : Nat) : ⌈((n : ℚ) / 5)⌉₊ = (n + 4) / 5 := by
  have h := ceil_div_five_int n
  have h' : ((⌈((n : ℚ) / 5)⌉₊ : Nat) : Int) = ⌈((n : ℚ) / 5)⌉ :=
    Int.natCast_ceil_eq_ceil (by positivity)
  rw [h] at h'
  exact_mod_cast h'

theorem chunks_flatten_take (l : List entry) (m : Nat) :
    ((List.range m).map (fun k => (l.take (min (k * 5 + 5) l.length)).drop (k * 5))).flatten
      = l.take (m * 5) := by
  induction m with
  | zero => simp
  | succ m ih =>
    rw [List.range_succ, List.map_append, List.flatten_append, ih]
    simp only [List.map_cons, List.map_nil, List.flatten_cons, List.flatten_nil,
      List.append_nil]
    have e1 : l.take (min (m * 5 + 5) l.length) = l.take (m * 5 + 5) := by
      rcases Nat.le_total (m * 5 + 5) l.length with hle | hle
      · rw [Nat.min_eq_left hle]
      · rw [Nat.min_eq_right hle, List.take_of_length_le hle, List.take_of_length_le (le_refl _)]
    have e2 : l.take (m * 5) = (l.take (m * 5 + 5)).take (m * 5) := by
      rw [List.take_take]
      congr 1
      omega
    rw [e1, e2, List.take_append_drop]
    congr 1
    ring

theorem chunks_flatten (l : List entry) :
    ((List.range ((l.length + 4) / 5)).map
      (fun k => (l.take (min (k * 5 + 5) l.length)).drop (k * 5))).flatten = l := by
  rw [chunks_flatten_take]
  apply List.take_of_length_le
  omega

theorem renderPages_page (tags : Grouping) (es : List entry) (diskPath title : List Char)
    (k : Nat) (w : List Char × tPayload)
    (h : (renderPages tags es diskPath title).writes[k]? = some w) :
    k < (es.length + 4) / 5 ∧
      w = (pathAt diskPath k,
        pageAt (sortSlice es) title (HasSuffix diskPath ".html".toList)
          (payload0 tags es.length) k) := by
  rw [renderPages_writes, sortSlice_length] at h
  rw [List.getElem?_map] at h
  by_cases hk : k < (es.length + 4) / 5
  · rw [List.getElem?_range hk] at h
    simp only [Option.map_some', Option.some.injEq] at h
    exact ⟨hk, h.symm⟩
  · rw [List.getElem?_eq_none (by simpa using hk)] at h
    simp at h

theorem renderPages_mem (tags : Grouping) (es : List entry) (diskPath title : List Char)
    (w : List Char × tPayload) (h : w ∈ (renderPages tags es diskPath title).writes) :
    ∃ k, k < (es.length + 4) / 5 ∧
      w = (pathAt diskPath k,
        pageAt (sortSlice es) title (HasSuffix diskPath ".html".toList)
          (payload0 tags es.length) k) := by
  obtain ⟨k, hk⟩ := List.getElem?_of_mem h
  exact ⟨k, renderPages_page tags es diskPath title k w hk⟩

/-! ## The claims on pagination -/

/-- C1: for a list of N entries `renderPages` sets `TotalPages` to the ceiling
of N/5 and renders exactly that many pages, with `CurPage` 1, 2, ... in that
order; the page written k-th (counting from 0) carries the entries at positions
[5k, min(5(k+1), N)) of the sorted list, so the first page holds positions
[0,5), each page holds between 1 and 5 entries, the pages concatenated give the
sorted list, nothing is written when N = 0, and N = 12 gives sizes 5, 5, 2. -/
theorem C1_pagination (tags : Grouping) (es : List entry) (diskPath title : List Char) :
    (renderPages tags es diskPath title).TotalPages = ⌈((es.length : ℚ) / 5)⌉ ∧
    (renderPages tags es diskPath title).writes.length = ⌈((es.length : ℚ) / 5)⌉₊ ∧
    (renderPages tags es diskPath title).writes.map (fun w => (w.2.CurPage, w.2.TotalPages)) =
      (List.range ⌈((es.length : ℚ) / 5)⌉₊).map
        (fun i => (((i : Nat) : Int) + 1, ⌈((es.length : ℚ) / 5)⌉)) ∧
    (∀ (k : Nat) (w : List Char × tPayload),
      (renderPages tags es diskPath title).writes[k]? = some w →
        w.2.Articles.length = min (5 * (k + 1)) es.length - 5 * k ∧
        (∀ j, j < w.2.Articles.length →
          w.2.Articles[j]? = (renderPages tags es diskPath title).entries[5 * k + j]?) ∧
        1 ≤ w.2.Articles.length ∧ w.2.Articles.length ≤ 5) ∧
    (∀ w, (renderPages tags es diskPath title).writes[0]? = some w →
      w.2.Articles = (renderPages tags es diskPath title).entries.take 5) ∧
    ((renderPages tags es diskPath title).writes.map (fun w => w.2.Articles)).flatten =
      (renderPages tags es diskPath title).entries ∧
    (es.length = 0 → (renderPages tags es diskPath title).writes = []) ∧
    (es.length = 12 →
      (renderPages tags es diskPath title).writes.map (fun w => w.2.Articles.length) =
        [5, 5, 2]) := by
  have hlen := sortSlice_length es
  have hent : (renderPages tags es diskPath title).entries = sortSlice es := rfl
  refine ⟨?_, ?_, ?_, ?_, ?_, ?_, ?_, ?_⟩
  · rw [ceil_div_five_int]
    simp [renderPages, ARTICLES_PER_PAGE, hlen]
  · rw [ceil_div_five_nat, renderPages_writes, hlen]
    simp
  · rw [ceil_div_five_nat, ceil_div_five_int, renderPages_writes, hlen]
    simp [pageAt, payload0, Function.comp_def]
  · intro k w hw
    obtain ⟨hk, rfl⟩ := renderPages_page tags es diskPath title k w hw
    have hA : (pageAt (sortSlice es) title (HasSuffix diskPath ".html".toList)
        (payload0 tags es.length) k).Articles
        = ((sortSlice es).take (min (k * 5 + 5) (sortSlice es).length)).drop (k * 5) := rfl
    simp only [hA, hent, hlen]
    have hl : (((sortSlice es).take (min (k * 5 + 5) es.length)).drop (k * 5)).length
        = min (5 * (k + 1)) es.length - 5 * k := by
      rw [List.length_drop, List.length_take, hlen]
      omega
    refine ⟨hl, ?_, ?_, ?_⟩
    · intro j hj
      rw [hl] at hj
      rw [List.getElem?_drop, List.getElem?_take_of_lt (by omega)]
      congr 1
      ring
    · rw [hl]; omega
    · rw [hl]; omega
  · intro w hw
    obtain ⟨_, rfl⟩ := renderPages_page tags es diskPath title 0 w hw
    show ((sortSlice es).take (min (0 * 5 + 5) (sortSlice es).length)).drop (0 * 5) = _
    rw [hent]
    rcases Nat.le_total 5 (sortSlice es).length with hle | hle
    · simp [Nat.min_eq_left hle]
    · simp [Nat.min_eq_right hle, List.take_of_length_le hle]
  · rw [renderPages_writes, List.map_map, hent]
    exact chunks_flatten (sortSlice es)
  · intro h0
    rw [renderPages_writes, hlen, h0]
    rfl
  · intro h12
    rw [renderPages_writes, hlen, h12]
    simp [pageAt, List.range_succ, hlen, h12]

theorem toString_int_of_pos (idx : Int) (h : 1 < idx) :
    (toString idx).toList = Nat.toDigits 10 idx.toNat := by
  cases idx with
  | ofNat n => rfl
  | negSucc n =>
    have hneg := Int.negSucc_lt_zero n
    omega

/-- C2: `genPageLink` is total on the integers, gives "index.html" for every
idx ≤ 1 and "index" ++ decimal(idx) ++ ".html" for idx > 1; each rendered page
has PrevPageLink = genPageLink(CurPage - 1) and NextPageLink =
genPageLink(CurPage + 1) with no bounds check: page 1 links back to
"index.html", page 2 links back to "index.html" and on to "index3.html", and
the last page links on to the name of page TotalPages + 1. -/
theorem C2_page_links (tags : Grouping) (es : List entry) (diskPath title : List Char) :
    (∀ idx : Int, genPageLink idx =
      if idx ≤ 1 then "index.html".toList
      else "index".toList ++ (toString idx).toList ++ ".html".toList) ∧
    (∀ w ∈ (renderPages tags es diskPath title).writes,
      w.2.PrevPageLink = genPageLink (w.2.CurPage - 1) ∧
      w.2.NextPageLink = genPageLink (w.2.CurPage + 1) ∧
      (w.2.CurPage = 1 → w.2.PrevPageLink = "index.html".toList) ∧
      (w.2.CurPage = 2 →
        w.2.PrevPageLink = "index.html".toList ∧ w.2.NextPageLink = "index3.html".toList) ∧
      (w.2.CurPage = w.2.TotalPages →
        w.2.NextPageLink =
          "index".toList ++ (toString (w.2.TotalPages + 1)).toList ++ ".html".toList)) := by
  have hgen : ∀ idx : Int, genPageLink idx =
      if idx ≤ 1 then "index.html".toList
      else "index".toList ++ (toString idx).toList ++ ".html".toList := by
    intro idx
    unfold genPageLink
    split
    · rfl
    · rw [toString_int_of_pos idx (by omega)]
  refine ⟨hgen, ?_⟩
  intro w hw
  obtain ⟨k, hk, rfl⟩ := renderPages_mem tags es diskPath title w hw
  have hcur : (pageAt (sortSlice es) title (HasSuffix diskPath ".html".toList)
      (payload0 tags es.length) k).CurPage = ((k + 1 : Nat) : Int) := rfl
  have hprev : (pageAt (sortSlice es) title (HasSuffix diskPath ".html".toList)
      (payload0 tags es.length) k).PrevPageLink = genPageLink (((k + 1 : Nat) : Int) - 1) := rfl
  have hnext : (pageAt (sortSlice es) title (HasSuffix diskPath ".html".toList)
      (payload0 tags es.length) k).NextPageLink = genPageLink (((k + 1 : Nat) : Int) + 1) := rfl
  have htot : (pageAt (sortSlice es) title (HasSuffix diskPath ".html".toList)
      (payload0 tags es.length) k).TotalPages = (((es.length + 4) / 5 : Nat) : Int) := rfl
  simp only [hcur, hprev, hnext, htot]
  refine ⟨trivial, trivial, ?_, ?_, ?_⟩
  · intro h1
    rw [h1]
    rfl
  · intro h2
    rw [h2]
    exact ⟨rfl, rfl⟩
  · intro hlast
    rw [hlast, hgen]
    have hpos : ¬ ((((es.length + 4) / 5 : Nat) : Int) + 1 ≤ 1) := by
      have : (0 : Int) < (((es.length + 4) / 5 : Nat) : Int) := by omega
      omega
    rw [if_neg hpos]

/-- C3: the list `renderPages` cuts into pages (and leaves in the caller's
slice) is a permutation of the list it was given, with TStamp non-increasing
from front to back, whatever the order of the input. -/
theorem C3_sorted_newest_first (tags : Grouping) (es : List entry)
    (diskPath title : List Char) :
    (renderPages tags es diskPath title).entries.Perm es ∧
    (renderPages tags es diskPath title).entries.Pairwise (fun a b => b.TStamp ≤ a.TStamp) ∧
    ((renderPages tags es diskPath title).writes.map (fun w => w.2.Articles)).flatten =
      (renderPages tags es diskPath title).entries ∧
    (∀ es', es'.Perm es →
      ((renderPages tags es' diskPath title).entries.map (fun e => e.TStamp)) =
        ((renderPages tags es diskPath title).entries.map (fun e => e.TStamp))) := by
  have hent : ∀ l, (renderPages tags l diskPath title).entries = sortSlice l := fun _ => rfl
  refine ⟨?_, ?_, ?_, ?_⟩
  · rw [hent]; exact sortSlice_perm es
  · rw [hent]; exact sortSlice_sorted es
  · rw [renderPages_writes, List.map_map, hent]
    exact chunks_flatten (sortSlice es)
  · intro es' hp
    rw [hent, hent]
    have hperm : ((sortSlice es').map (fun e => e.TStamp)).Perm
        ((sortSlice es).map (fun e => e.TStamp)) :=
      (((sortSlice_perm es').trans hp).trans (sortSlice_perm es).symm).map _
    have hs : ∀ l : List entry, ((sortSlice l).map (fun e => e.TStamp)).Sorted (· ≥ ·) := by
      intro l
      exact List.pairwise_map.mpr (sortSlice_sorted l)
    exact List.eq_of_perm_of_sorted hperm (hs es') (hs es)

/-- C10: a call of `renderPages` with exactly one entry and a destination
ending in ".html" writes exactly one file, at the destination itself, with
TotalPages = 1, CurPage = 1, Articles = [e] and ArticleEntered = true; a call
with a destination not ending in ".html" writes its k-th page (k counted from
1) to destination ++ genPageLink(k), with ArticleEntered = false on every page. -/
theorem C10_destination (tags : Grouping) (diskPath title : List Char) :
    (HasSuffix diskPath ".html".toList = true → ∀ e : entry,
      ∃ p : tPayload, (renderPages tags [e] diskPath title).writes = [(diskPath, p)] ∧
        p.TotalPages = 1 ∧ p.CurPage = 1 ∧ p.Articles = [e] ∧ p.ArticleEntered = true) ∧
    (HasSuffix diskPath ".html".toList = false → ∀ (es : List entry) (k : Nat)
      (w : List Char × tPayload), (renderPages tags es diskPath title).writes[k]? = some w →
        w.1 = diskPath ++ genPageLink (((k + 1 : Nat) : Int)) ∧
        w.2.CurPage = ((k + 1 : Nat) : Int) ∧ w.2.ArticleEntered = false) := by
  constructor
  · intro hs e
    refine ⟨pageAt [e] title true (payload0 tags 1) 0, ?_, rfl, rfl, rfl, rfl⟩
    rw [renderPages_writes]
    have h1 : sortSlice [e] = [e] := rfl
    have hs' : HasSuffix diskPath ['.', 'h', 't', 'm', 'l'] = true := hs
    rw [h1, hs]
    simp [pathAt, hs', List.range_succ]
  · intro hs es k w hw
    obtain ⟨_, rfl⟩ := renderPages_page tags es diskPath title k w hw
    refine ⟨?_, rfl, ?_⟩
    · simp only [pathAt, hs]
      rfl
    · simp only [pageAt, hs]

/-! ## `parse`: the content hash -/

theorem parse_Hash (html : List Char) (now : Clock) :
    (parse html now).Hash = contentHash html := by
  unfold parse
  simp only []
  split <;> rfl

theorem parse_TStamp (html : List Char) (now : Clock) :
    (parse html now).TStamp = now.UnixNano := by
  unfold parse
  simp only []
  split <;> rfl

theorem parse_Date (html : List Char) (now : Clock) :
    (parse html now).Date = now.Formatted := by
  unfold parse
  simp only []
  split <;> rfl

theorem ReplaceCRLF_cons_cons (c d : Char) (t : List Char) :
    ReplaceCRLF (c :: d :: t) =
      if c = '\r' ∧ d = '\n' then '\n' :: ReplaceCRLF t else c :: ReplaceCRLF (d :: t) := by
  rw [ReplaceCRLF]

theorem ReplaceCRLF_cons_of_ne (c : Char) (t : List Char) (h : c ≠ '\r') :
    ReplaceCRLF (c :: t) = c :: ReplaceCRLF t := by
  cases t with
  | nil => simp [ReplaceCRLF]
  | cons d t => rw [ReplaceCRLF_cons_cons, if_neg (fun hc => h hc.1)]

theorem ReplaceCRLF_of_no_cr (t : List Char) (h : '\r' ∉ t) : ReplaceCRLF t = t := by
  induction t with
  | nil => simp [ReplaceCRLF]
  | cons c t ih =>
    simp only [List.mem_cons, not_or] at h
    rw [ReplaceCRLF_cons_of_ne c t (fun hc => h.1 hc.symm), ih h.2]

theorem ReplaceCRLF_lfToCrlf (t : List Char) (h : '\r' ∉ t) :
    ReplaceCRLF (lfToCrlf t) = t := by
  induction t with
  | nil => simp [lfToCrlf, ReplaceCRLF]
  | cons c t ih =>
    simp only [List.mem_cons, not_or] at h
    have hstep : lfToCrlf (c :: t) = (if c = '\n' then ['\r', '\n'] else [c]) ++ lfToCrlf t := by
      simp [lfToCrlf]
    rw [hstep]
    by_cases hc : c = '\n'
    · rw [if_pos hc]
      show ReplaceCRLF ('\r' :: '\n' :: lfToCrlf t) = c :: t
      rw [ReplaceCRLF_cons_cons, if_pos ⟨rfl, rfl⟩, ih h.2, hc]
    · rw [if_neg hc]
      show ReplaceCRLF (c :: lfToCrlf t) = c :: t
      rw [ReplaceCRLF_cons_of_ne c _ (fun hc' => h.1 hc'.symm), ih h.2]

theorem beBytes_length (k x : Nat) : (beBytes k x).length = k := by
  induction k with
  | zero => rfl
  | succ k ih => simp [beBytes, ih]

theorem hexBytes_length (bs : List Nat) : (hexBytes bs).length = 2 * bs.length := by
  induction bs with
  | nil => rfl
  | cons b bs ih =>
    have h : hexBytes (b :: bs) =
        [Nat.digitChar (b / 16), Nat.digitChar (b % 16)] ++ hexBytes bs := by
      simp [hexBytes]
    rw [h, List.length_append, ih]
    simp
    omega

theorem contentHash_length (html : List Char) : (contentHash html).length = 8 := by
  unfold contentHash
  rw [List.length_take, hexBytes_length]
  simp [sha1Sum, beBytes_length]

set_option maxRecDepth 1000000 in
/-- C9: the Hash that `parse` computes is the first 8 hex characters of the
SHA-1 of the text with every CRLF replaced by LF (8 characters, whatever the
clock says); two texts with the same normalised text get the same Hash, and a
text without carriage returns gets the same Hash as its CRLF rewriting. -/
theorem C9_content_hash :
    (∀ (html : List Char) (now : Clock),
      (parse html now).Hash = (hexBytes (sha1Sum (toBytes (ReplaceCRLF html)))).take 8 ∧
      (parse html now).Hash.length = 8) ∧
    (∀ (h1 h2 : List Char) (n1 n2 : Clock), ReplaceCRLF h1 = ReplaceCRLF h2 →
      (parse h1 n1).Hash = (parse h2 n2).Hash) ∧
    (∀ (t : List Char) (n1 n2 : Clock), '\r' ∉ t →
      (parse t n1).Hash = (parse (lfToCrlf t) n2).Hash) ∧
    (parse "a\nb\n".toList ⟨1, "Mon".toList⟩).Hash = "05dec960".toList ∧
    (parse "a\r\nb\r\n".toList ⟨2, "Tue".toList⟩).Hash = "05dec960".toList := by
  refine ⟨?_, ?_, ?_, ?_, ?_⟩
  · intro html now
    rw [parse_Hash]
    exact ⟨rfl, contentHash_length html⟩
  · intro h1 h2 n1 n2 h
    rw [parse_Hash, parse_Hash, contentHash, contentHash, h]
  · intro t n1 n2 h
    rw [parse_Hash, parse_Hash, contentHash, contentHash, ReplaceCRLF_lfToCrlf t h,
      ReplaceCRLF_of_no_cr t h]
  · rw [parse_Hash]
    decide
  · rw [parse_Hash]
    decide

/-! ## `parse`: the scan for markers -/

theorem matchValue_length :
    ∀ (s v rest : List Char), matchValue s = some (v, rest) → rest.length < s.length := by
  intro s
  induction s with
  | nil => intro v rest h; simp [matchValue] at h
  | cons c s ih =>
    intro v rest h
    unfold matchValue at h
    split at h
    · simp only [Option.some.injEq, Prod.mk.injEq] at h
      rw [← h.2]
      simp only [List.length_drop, List.length_cons]
      omega
    · cases hm : matchValue s with
      | none => simp [hm] at h
      | some p =>
        obtain ⟨v', rest'⟩ := p
        simp only [hm, Option.some.injEq, Prod.mk.injEq] at h
        have := ih v' rest' hm
        rw [← h.2]
        simp only [List.length_cons]
        omega

theorem matchKeyRest_length :
    ∀ (s k v rest : List Char), matchKeyRest s = some (k, v, rest) →
      rest.length < s.length := by
  intro s
  induction s with
  | nil => intro k v rest h; simp [matchKeyRest] at h
  | cons c s ih =>
    intro k v rest h
    unfold matchKeyRest at h
    split at h
    · rename_i v' rest' hv
      simp only [Option.some.injEq, Prod.mk.injEq] at h
      split at hv
      · have := matchValue_length s v' rest' hv
        rw [← h.2.2]
        simp only [List.length_cons]
        omega
      · simp at hv
    · cases hm : matchKeyRest s with
      | none => simp [hm] at h
      | some p =>
        obtain ⟨k', v', rest'⟩ := p
        simp only [hm, Option.some.injEq, Prod.mk.injEq] at h
        have := ih k' v' rest' hm
        rw [← h.2.2]
        simp only [List.length_cons]
        omega

theorem reTagAt_length (s k v rest : List Char) (h : reTagAt s = some (k, v, rest)) :
    rest.length < s.length := by
  unfold reTagAt at h
  split at h
  · split at h
    · simp at h
    · rename_i c t hd
      cases hm : matchKeyRest t with
      | none => simp [hm] at h
      | some p =>
        obtain ⟨k', v', rest'⟩ := p
        simp only [hm, Option.some.injEq, Prod.mk.injEq] at h
        have h1 := matchKeyRest_length t k' v' rest' hm
        have h2 : (s.drop 4).length = t.length + 1 := by rw [hd]; rfl
        rw [List.length_drop] at h2
        rw [← h.2.2]
        omega
  · simp at h

theorem findAllFrom_fuel :
    ∀ (n m : Nat) (s : List Char), s.length ≤ n → s.length ≤ m →
      findAllFrom n s = findAllFrom m s := by
  intro n
  induction n with
  | zero =>
    intro m s hn _
    have hs : s = [] := List.length_eq_zero.mp (by omega)
    subst hs
    cases m <;> rfl
  | succ n ih =>
    intro m s hn hm
    cases s with
    | nil => cases m <;> rfl
    | cons c s =>
      cases m with
      | zero => simp at hm
      | succ m =>
        simp only [List.length_cons] at hn hm
        unfold findAllFrom
        cases hr : reTagAt (c :: s) with
        | none => exact ih m s (by omega) (by omega)
        | some p =>
          obtain ⟨k, v, rest⟩ := p
          have hl := reTagAt_length (c :: s) k v rest hr
          simp only [List.length_cons] at hl
          simp only
          rw [ih m rest (by omega) (by omega)]

theorem FindAllStringSubmatch_nil : FindAllStringSubmatch [] = [] := rfl

theorem FindAllStringSubmatch_cons (c : Char) (s : List Char) :
    FindAllStringSubmatch (c :: s) =
      match reTagAt (c :: s) with
      | some (k, v, rest) => (k, v) :: FindAllStringSubmatch rest
      | none => FindAllStringSubmatch s := by
  unfold FindAllStringSubmatch
  simp only [List.length_cons]
  rw [findAllFrom]
  cases hr : reTagAt (c :: s) with
  | none => rfl
  | some p =>
    obtain ⟨k, v, rest⟩ := p
    have hl := reTagAt_length (c :: s) k v rest hr
    simp only [List.length_cons] at hl
    simp only
    rw [findAllFrom_fuel s.length rest.length rest (by omega) (le_refl _)]

/-! ## `parse`: the loop over the markers -/

theorem applyMarker_Title (e : entry) (m : List Char × List Char) :
    (applyMarker e m).Title =
      if TrimSpace m.1 = "title".toList then TrimSpace m.2 else e.Title := by
  unfold applyMarker
  simp only []
  split
  · rfl
  · split
    · rfl
    · split <;> rfl

theorem applyMarker_Author (e : entry) (m : List Char × List Char) :
    (applyMarker e m).Author =
      if TrimSpace m.1 = "author".toList then TrimSpace m.2 else e.Author := by
  unfold applyMarker
  simp only []
  split
  · rename_i h
    rw [if_neg (by rw [h]; decide)]
  · split
    · rfl
    · split <;> rfl

theorem applyMarker_Tags (e : entry) (m : List Char × List Char) :
    (applyMarker e m).Tags =
      if TrimSpace m.1 = "tag".toList then setTag e.Tags (TrimSpace m.2) else e.Tags := by
  unfold applyMarker
  simp only []
  split
  · rename_i h
    rw [if_neg (by rw [h]; decide)]
  · split
    · rename_i h
      rw [if_neg (by rw [h]; decide)]
    · split <;> rfl

theorem applyMarker_other (e : entry) (m : List Char × List Char) (h : recognised m = false) :
    applyMarker e m = e := by
  simp only [recognised, Bool.or_eq_false_iff, decide_eq_false_iff_not] at h
  unfold applyMarker
  simp only []
  rw [if_neg h.1.1, if_neg h.1.2, if_neg h.2]

theorem foldl_applyMarker_filter (ms : List (List Char × List Char)) :
    ∀ e : entry, ms.foldl applyMarker e = (ms.filter recognised).foldl applyMarker e := by
  induction ms with
  | nil => intro e; rfl
  | cons m ms ih =>
    intro e
    cases hr : recognised m with
    | true => rw [List.filter_cons_of_pos hr, List.foldl_cons, List.foldl_cons, ih]
    | false =>
      rw [List.filter_cons_of_neg (by simp [hr]), List.foldl_cons, applyMarker_other e m hr, ih]

/-- A field that the marker loop overwrites under one key holds, after the
loop, the value of the last marker with that key. -/
theorem foldl_applyMarker_last (key : List Char) (get : entry → List Char)
    (hget : ∀ e m, get (applyMarker e m) =
      if TrimSpace m.1 = key then TrimSpace m.2 else get e)
    (ms : List (List Char × List Char)) :
    ∀ e : entry, get (ms.foldl applyMarker e) =
      match (ms.filter (fun m => decide (TrimSpace m.1 = key))).getLast? with
      | some m => TrimSpace m.2
      | none => get e := by
  induction ms with
  | nil => intro e; rfl
  | cons m ms ih =>
    intro e
    rw [List.foldl_cons, ih, hget]
    by_cases hk : TrimSpace m.1 = key
    · rw [List.filter_cons_of_pos (by simpa using hk), if_pos hk]
      cases hF : ms.filter (fun m => decide (TrimSpace m.1 = key)) with
      | nil => rfl
      | cons a F =>
        rw [List.getLast?_cons_cons]
        cases hl : (a :: F).getLast? with
        | none => simp at hl
        | some x => rfl
    · rw [List.filter_cons_of_neg (by simpa using hk), if_neg hk]

theorem setTag_mem (tags : List (List Char)) (v w : List Char) :
    w ∈ setTag tags v ↔ w ∈ tags ∨ w = v := by
  unfold setTag
  split
  · rename_i h
    constructor
    · exact Or.inl
    · rintro (h' | h')
      · exact h'
      · rw [h']; exact h
  · simp

theorem setTag_nodup (tags : List (List Char)) (v : List Char) (h : tags.Nodup) :
    (setTag tags v).Nodup := by
  unfold setTag
  split
  · exact h
  · rename_i hv
    rw [List.nodup_append]
    refine ⟨h, List.nodup_singleton v, ?_⟩
    intro a ha hb
    rw [List.mem_singleton] at hb
    exact hv (hb ▸ ha)

theorem foldl_applyMarker_Tags (ms : List (List Char × List Char)) :
    ∀ (e : entry) (w : List Char), w ∈ (ms.foldl applyMarker e).Tags ↔
      w ∈ e.Tags ∨ ∃ m ∈ ms, TrimSpace m.1 = "tag".toList ∧ TrimSpace m.2 = w := by
  induction ms with
  | nil => intro e w; simp
  | cons m ms ih =>
    intro e w
    rw [List.foldl_cons, ih, applyMarker_Tags]
    by_cases hk : TrimSpace m.1 = "tag".toList
    · rw [if_pos hk, setTag_mem]
      constructor
      · rintro ((h | h) | ⟨m', hm', h⟩)
        · exact Or.inl h
        · exact Or.inr ⟨m, List.mem_cons_self _ _, hk, h.symm⟩
        · exact Or.inr ⟨m', List.mem_cons_of_mem _ hm', h⟩
      · rintro (h | ⟨m', hm', h⟩)
        · exact Or.inl (Or.inl h)
        · rcases List.mem_cons.mp hm' with heq | hin
          · subst heq
            exact Or.inl (Or.inr h.2.symm)
          · exact Or.inr ⟨m', hin, h⟩
    · rw [if_neg hk]
      constructor
      · rintro (h | ⟨m', hm', h⟩)
        · exact Or.inl h
        · exact Or.inr ⟨m', List.mem_cons_of_mem _ hm', h⟩
      · rintro (h | ⟨m', hm', h⟩)
        · exact Or.inl h
        · rcases List.mem_cons.mp hm' with heq | hin
          · subst heq
            exact absurd h.1 hk
          · exact Or.inr ⟨m', hin, h⟩

theorem foldl_applyMarker_nodup (ms : List (List Char × List Char)) :
    ∀ e : entry, e.Tags.Nodup → (ms.foldl applyMarker e).Tags.Nodup := by
  induction ms with
  | nil => intro e h; exact h
  | cons m ms ih =>
    intro e h
    rw [List.foldl_cons]
    apply ih
    rw [applyMarker_Tags]
    split
    · exact setTag_nodup _ _ h
    · exact h

/-- The entry as the marker loop of `parse` leaves it. -/
theorem parse_fields (html : List Char) (now : Clock) :
    (parse html now).Title =
        ((FindAllStringSubmatch html).foldl applyMarker
          ⟨[], [], [], [], 0, [], [], html⟩).Title ∧
    (parse html now).Author =
        (if ((FindAllStringSubmatch html).foldl applyMarker
            ⟨[], [], [], [], 0, [], [], html⟩).Author = [] then DEFAULT_AUTHOR
         else ((FindAllStringSubmatch html).foldl applyMarker
            ⟨[], [], [], [], 0, [], [], html⟩).Author) ∧
    (parse html now).Tags =
        ((FindAllStringSubmatch html).foldl applyMarker
          ⟨[], [], [], [], 0, [], [], html⟩).Tags := by
  unfold parse
  simp only []
  split
  · exact ⟨rfl, rfl, rfl⟩
  · exact ⟨rfl, rfl, rfl⟩

/-- C7: `parse` applies the markers found by the pattern in order of
occurrence (the scan is never cut short), after trimming key and value: Title
is the trimmed value of the last `title` marker (empty when there is none),
Author that of the last `author` marker, replaced by "admin" when there is none
or it is empty, so Author is never empty; Tags holds exactly the trimmed values
of the `tag` markers; a marker with any other key, such as `Title`, changes
nothing. -/
theorem C7_parse_markers (html : List Char) (now : Clock) :
    (parse html now).Title = lastValue "title".toList (FindAllStringSubmatch html) ∧
    (parse html now).Author =
      (if lastValue "author".toList (FindAllStringSubmatch html) = [] then "admin".toList
       else lastValue "author".toList (FindAllStringSubmatch html)) ∧
    (parse html now).Author ≠ [] ∧
    (∀ v, v ∈ (parse html now).Tags ↔
      ∃ m ∈ FindAllStringSubmatch html, TrimSpace m.1 = "tag".toList ∧ TrimSpace m.2 = v) ∧
    (parse html now).Tags.Nodup ∧
    (∀ (e : entry) (m : List Char × List Char), TrimSpace m.1 ≠ "title".toList →
      TrimSpace m.1 ≠ "author".toList → TrimSpace m.1 ≠ "tag".toList → applyMarker e m = e) ∧
    (∀ (e : entry) (v : List Char), applyMarker e ("Title".toList, v) = e) ∧
    (∀ e : entry, (FindAllStringSubmatch html).foldl applyMarker e =
      ((FindAllStringSubmatch html).filter recognised).foldl applyMarker e) ∧
    (∀ n, html.length ≤ n → findAllFrom n html = FindAllStringSubmatch html) := by
  obtain ⟨hT, hA, hG⟩ := parse_fields html now
  have hlastA := foldl_applyMarker_last "author".toList (fun e => e.Author) applyMarker_Author
    (FindAllStringSubmatch html) ⟨[], [], [], [], 0, [], [], html⟩
  have hlastT := foldl_applyMarker_last "title".toList (fun e => e.Title) applyMarker_Title
    (FindAllStringSubmatch html) ⟨[], [], [], [], 0, [], [], html⟩
  simp only [] at hlastA hlastT
  have hAuthor : (parse html now).Author =
      (if lastValue "author".toList (FindAllStringSubmatch html) = [] then "admin".toList
       else lastValue "author".toList (FindAllStringSubmatch html)) := by
    rw [hA, hlastA]
    rfl
  refine ⟨?_, hAuthor, ?_, ?_, ?_, ?_, ?_, ?_, ?_⟩
  · rw [hT, hlastT]
    rfl
  · rw [hAuthor]
    split
    · decide
    · assumption
  · intro v
    rw [hG, foldl_applyMarker_Tags]
    simp
  · rw [hG]
    exact foldl_applyMarker_nodup _ _ List.nodup_nil
  · intro e m h1 h2 h3
    exact applyMarker_other e m (by
      simp only [recognised, Bool.or_eq_false_iff, decide_eq_false_iff_not]
      exact ⟨⟨h1, h2⟩, h3⟩)
  · intro e v
    have hk : TrimSpace "Title".toList = "Title".toList := by decide
    exact applyMarker_other e _ (by
      simp only [recognised, Bool.or_eq_false_iff, decide_eq_false_iff_not, hk]
      decide)
  · exact foldl_applyMarker_filter _
  · intro n hn
    exact findAllFrom_fuel n html.length html hn (le_refl _)

/-! ## `parse`: a `tag` marker in a text -/

theorem matchValue_of_no_close (B : List Char) :
    ∀ V : List Char, ¬ (['-', '-', '>'] <:+: V) →
      matchValue (V ++ ['-', '-', '>'] ++ B) = some (V, B) := by
  intro V
  induction V with
  | nil => intro _; simp [matchValue, List.isPrefixOf]
  | cons c V ih =>
    intro h
    have hV : ¬ (['-', '-', '>'] <:+: V) := fun hi => h (List.infix_cons hi)
    have hp : List.isPrefixOf "-->".toList (c :: (V ++ ['-', '-', '>'] ++ B)) = false := by
      rcases V with _ | ⟨d, _ | ⟨e, V⟩⟩
      · simp [List.isPrefixOf]
      · simp [List.isPrefixOf]
      · simp only [String.toList, List.isPrefixOf, List.cons_append, Bool.and_true,
          Bool.and_eq_false_iff, beq_eq_false_iff_ne, ne_eq]
        by_contra hc
        simp only [not_or, not_not] at hc
        apply h
        refine ⟨[], V, ?_⟩
        rw [← hc.1, ← hc.2.1, ← hc.2.2]
        rfl
    have hrw : (c :: V) ++ ['-', '-', '>'] ++ B = c :: (V ++ ['-', '-', '>'] ++ B) := rfl
    rw [hrw, matchValue, if_neg (by rw [hp]; exact Bool.false_ne_true), ih hV]

theorem reTagAt_tag_marker (V B : List Char) (hV : ¬ (['-', '-', '>'] <:+: V)) :
    reTagAt (['<', '!', '-', '-', 't', 'a', 'g', ':'] ++ V ++ ['-', '-', '>'] ++ B) =
      some (['t', 'a', 'g'], V, B) := by
  have hm := matchValue_of_no_close B V hV
  simp only [List.append_assoc, List.cons_append, List.nil_append] at hm
  simp [reTagAt, List.isPrefixOf, matchKeyRest, hm]

theorem afterColon_split :
    ∀ (t u : List Char), afterColon t = some u →
      ∃ K : List Char, t = K ++ ':' :: u ∧ ∀ c ∈ K, c ≠ ':' := by
  intro t
  induction t with
  | nil => intro u h; simp [afterColon] at h
  | cons c t ih =>
    intro u h
    unfold afterColon at h
    by_cases hc : c = ':'
    · rw [if_pos hc] at h
      simp only [Option.some.injEq] at h
      exact ⟨[], by simp [hc, h], by simp⟩
    · rw [if_neg hc] at h
      obtain ⟨K, hK, hne⟩ := ih u h
      refine ⟨c :: K, by simp [hK], ?_⟩
      intro d hd
      rcases List.mem_cons.mp hd with h1 | h1
      · rw [h1]; exact hc
      · exact hne d h1

theorem first_close :
    ∀ u : List Char, ['-', '-', '>'] <:+: u →
      ∃ W R : List Char, u = W ++ ['-', '-', '>'] ++ R ∧ ¬ (['-', '-', '>'] <:+: W) := by
  intro u
  induction u with
  | nil =>
    intro h
    have := List.eq_nil_of_infix_nil h
    simp at this
  | cons c u ih =>
    intro h
    by_cases hp : ['-', '-', '>'] <+: c :: u
    · obtain ⟨R, hR⟩ := hp
      exact ⟨[], R, by simp [← hR], by simp⟩
    · rcases List.infix_cons_iff.mp h with h1 | h1
      · exact absurd h1 hp
      · obtain ⟨W, R, hu, hW⟩ := ih h1
        refine ⟨c :: W, R, by simp [hu], ?_⟩
        intro hi
        rcases List.infix_cons_iff.mp hi with h2 | h2
        · apply hp
          obtain ⟨T, hT⟩ := h2
          refine ⟨T ++ ['-', '-', '>'] ++ R, ?_⟩
          rw [hu, ← List.cons_append, ← List.cons_append, ← hT]
          simp
        · exact hW h2

theorem matchKeyRest_of_key (Y W Z : List Char) (hY : matchValue Y = some (W, Z)) :
    ∀ K : List Char, (∀ c ∈ K, c ≠ ':') → matchKeyRest (K ++ ':' :: Y) = some (K, W, Z) := by
  intro K
  induction K with
  | nil =>
    intro _
    simp [matchKeyRest, hY]
  | cons c K ih =>
    intro h
    have hc : c ≠ ':' := h c (List.mem_cons_self _ _)
    have ih' := ih (fun d hd => h d (List.mem_cons_of_mem _ hd))
    rw [List.cons_append, matchKeyRest, if_neg hc]
    simp only [ih']

/-- An opener that is closed inside the text starts a match that ends inside
the text, whatever follows the text. -/
theorem reTagAt_closed (c : Char) (s : List Char)
    (hp : List.isPrefixOf "<!--".toList (c :: s) = true)
    (hc : closesMarker (s.drop 3) = true) :
    ∃ (k v P rest : List Char), s = P ++ rest ∧
      ∀ X : List Char, reTagAt (c :: s ++ X) = some (k, v, rest ++ X) := by
  obtain ⟨S, hS⟩ : ∃ S, c :: s = ['<', '!', '-', '-'] ++ S := by
    have : ['<', '!', '-', '-'] <+: c :: s := List.isPrefixOf_iff_prefix.mp hp
    obtain ⟨S, hS⟩ := this
    exact ⟨S, hS.symm⟩
  have hs : s = ['!', '-', '-'] ++ S := by
    simp only [List.cons_append, List.nil_append, List.cons.injEq] at hS
    rw [hS.2]
    rfl
  have hd : s.drop 3 = S := by rw [hs]; rfl
  rw [hd] at hc
  cases S with
  | nil => simp [closesMarker] at hc
  | cons c' t =>
    unfold closesMarker at hc
    cases ha : afterColon t with
    | none => simp [ha] at hc
    | some u =>
      simp only [ha, decide_eq_true_eq] at hc
      obtain ⟨K, ht, hK⟩ := afterColon_split t u ha
      obtain ⟨W, R, hu, hW⟩ := first_close u hc
      refine ⟨c' :: K, W, ['!', '-', '-'] ++ c' :: K ++ ':' :: W ++ ['-', '-', '>'], R, ?_, ?_⟩
      · rw [hs, ht, hu]
        simp
      · intro X
        have hm : matchValue (W ++ ['-', '-', '>'] ++ (R ++ X)) = some (W, R ++ X) :=
          matchValue_of_no_close (R ++ X) W hW
        have hk := matchKeyRest_of_key _ W (R ++ X) hm K hK
        have hfull : c :: s ++ X =
            '<' :: '!' :: '-' :: '-' :: c' :: (K ++ ':' :: (W ++ ['-', '-', '>'] ++ (R ++ X))) := by
          rw [hS, ht, hu]
          simp
        rw [hfull]
        simp only [List.append_assoc, List.cons_append, List.nil_append] at hk
        simp [reTagAt, List.isPrefixOf, hk]

theorem reTagAt_not_opener (c : Char) (s R : List Char)
    (hp : List.isPrefixOf "<!--".toList (c :: s) = false) :
    reTagAt (c :: s ++ '<' :: R) = none := by
  have hp' : List.isPrefixOf "<!--".toList (c :: s ++ '<' :: R) = false := by
    rcases s with _ | ⟨d, _ | ⟨e, _ | ⟨f, s⟩⟩⟩
    · simp [List.isPrefixOf]
    · simp [List.isPrefixOf]
    · simp [List.isPrefixOf]
    · simpa [List.isPrefixOf] using hp
  unfold reTagAt
  rw [if_neg (by rw [hp']; exact Bool.false_ne_true)]

theorem openersClosed_suffix :
    ∀ P S : List Char, openersClosed (P ++ S) = true → openersClosed S = true := by
  intro P
  induction P with
  | nil => intro S h; exact h
  | cons c P ih =>
    intro S h
    rw [List.cons_append, openersClosed, Bool.and_eq_true] at h
    exact ih S h.2

/-- The scan of a text whose openers are all closed inside it comes out at the
end of the text: what follows is scanned from its own start. -/
theorem FindAll_closed_append (R : List Char) :
    ∀ (n : Nat) (A : List Char), A.length ≤ n → openersClosed A = true →
      ∃ ms, FindAllStringSubmatch (A ++ '<' :: R) = ms ++ FindAllStringSubmatch ('<' :: R) := by
  intro n
  induction n with
  | zero =>
    intro A hn _
    have hA : A = [] := List.length_eq_zero.mp (by omega)
    subst hA
    exact ⟨[], rfl⟩
  | succ n ih =>
    intro A hn hA
    cases A with
    | nil => exact ⟨[], rfl⟩
    | cons c s =>
      simp only [List.length_cons] at hn
      have hrw : (c :: s) ++ '<' :: R = c :: (s ++ '<' :: R) := rfl
      rw [hrw, FindAllStringSubmatch_cons]
      have hA' := hA
      rw [openersClosed, Bool.and_eq_true, Bool.or_eq_true] at hA'
      cases hp : List.isPrefixOf "<!--".toList (c :: s) with
      | true =>
        have hc : closesMarker (s.drop 3) = true := by
          rcases hA'.1 with h1 | h1
          · rw [hp] at h1; simp at h1
          · exact h1
        obtain ⟨k, v, P, rest, hs, hre⟩ := reTagAt_closed c s hp hc
        have hre' := hre ('<' :: R)
        rw [List.cons_append] at hre'
        rw [hre']
        have hlen : rest.length ≤ n := by
          have : s.length = P.length + rest.length := by rw [hs, List.length_append]
          omega
        have hcl : openersClosed rest = true := openersClosed_suffix P rest (by rw [← hs]; exact hA'.2)
        obtain ⟨ms, hms⟩ := ih rest hlen hcl
        exact ⟨(k, v) :: ms, by simp only [hms, List.cons_append]⟩
      | false =>
        have hn' := reTagAt_not_opener c s R hp
        rw [List.cons_append] at hn'
        rw [hn']
        exact ih s (by omega) hA'.2

theorem openersClosed_of_no_opener :
    ∀ A : List Char, ¬ (['<', '!', '-', '-'] <:+: A) → openersClosed A = true := by
  intro A
  induction A with
  | nil => intro _; rfl
  | cons c A ih =>
    intro h
    rw [openersClosed, Bool.and_eq_true, Bool.or_eq_true]
    refine ⟨Or.inl ?_, ih (fun hi => h (List.infix_cons hi))⟩
    rw [Bool.not_eq_true', ← Bool.not_eq_true]
    intro hp
    exact h (List.isPrefixOf_iff_prefix.mp hp).isInfix

theorem FindAll_tag_marker (A V B : List Char) (hA : openersClosed A = true)
    (hV : ¬ (['-', '-', '>'] <:+: V)) :
    ∃ ms, FindAllStringSubmatch
        (A ++ ['<', '!', '-', '-', 't', 'a', 'g', ':'] ++ V ++ ['-', '-', '>'] ++ B)
      = ms ++ (['t', 'a', 'g'], V) :: FindAllStringSubmatch B := by
  have hrw : A ++ ['<', '!', '-', '-', 't', 'a', 'g', ':'] ++ V ++ ['-', '-', '>'] ++ B =
      A ++ '<' :: (['!', '-', '-', 't', 'a', 'g', ':'] ++ V ++ ['-', '-', '>'] ++ B) := by
    simp
  obtain ⟨ms, hms⟩ := FindAll_closed_append
    (['!', '-', '-', 't', 'a', 'g', ':'] ++ V ++ ['-', '-', '>'] ++ B) A.length A (le_refl _) hA
  refine ⟨ms, ?_⟩
  rw [hrw, hms, FindAllStringSubmatch_cons]
  have hm := reTagAt_tag_marker V B hV
  simp only [List.cons_append] at hm
  simp only [List.cons_append]
  rw [hm]

/-- C8 (as stated, refuted): with A = `<!-- note -->` the key of the first
match runs from the comment to the colon of the marker, and with
A = `<!--title: a` the marker is part of the title value; in both texts the
marker `<!--tag:x-->` is not found and the tag set stays empty. -/
theorem C8_counterexample :
    ¬ ("-->".toList <:+: "x".toList) ∧
    FindAllStringSubmatch
        ("<!-- note -->".toList ++ "<!--tag:".toList ++ "x".toList ++ "-->".toList ++ []) =
      [(" note --><!--tag".toList, "x".toList)] ∧
    TrimSpace "x".toList ∉
      (parse ("<!-- note -->".toList ++ "<!--tag:".toList ++ "x".toList ++ "-->".toList ++ [])
        ⟨0, []⟩).Tags ∧
    FindAllStringSubmatch
        ("<!--title: a".toList ++ "<!--tag:".toList ++ "x".toList ++ "-->".toList ++ []) =
      [("title".toList, " a<!--tag:x".toList)] ∧
    TrimSpace "x".toList ∉
      (parse ("<!--title: a".toList ++ "<!--tag:".toList ++ "x".toList ++ "-->".toList ++ [])
        ⟨0, []⟩).Tags := by
  decide

/-- The special case of a text before the marker that holds no `<!--`. -/
theorem tag_marker_found_of_no_opener (A V B : List Char) (now : Clock)
    (hA : ¬ ("<!--".toList <:+: A)) (hV : ¬ ("-->".toList <:+: V)) :
    TrimSpace V ∈
      (parse (A ++ "<!--tag:".toList ++ V ++ "-->".toList ++ B) now).Tags := by
  obtain ⟨ms, hms⟩ := FindAll_tag_marker A V B (openersClosed_of_no_opener A hA) hV
  have htrim : TrimSpace ['t', 'a', 'g'] = "tag".toList := by decide
  rw [(parse_fields _ now).2.2, foldl_applyMarker_Tags]
  refine Or.inr ⟨(['t', 'a', 'g'], V), ?_, htrim, rfl⟩
  show _ ∈ FindAllStringSubmatch
    (A ++ ['<', '!', '-', '-', 't', 'a', 'g', ':'] ++ V ++ ['-', '-', '>'] ++ B)
  rw [hms]
  exact List.mem_append_right ms (List.mem_cons_self _ _)

/-- C8 (amended): for every raw text A ++ "<!--tag:" ++ V ++ "-->" ++ B in
which V contains no "-->" (V may hold newlines and colons) and every "<!--" in
A is followed inside A by one character, a colon further on and a "-->" after
the first such colon (in particular when A holds no "<!--" at all), B being
arbitrary, the trimmed V is a member of the parsed tag set. -/
theorem C8_tag_found (A V B : List Char) (now : Clock)
    (hA : openersClosed A = true) (hV : ¬ ("-->".toList <:+: V)) :
    TrimSpace V ∈
      (parse (A ++ "<!--tag:".toList ++ V ++ "-->".toList ++ B) now).Tags := by
  have e1 : "<!--tag:".toList = ['<', '!', '-', '-', 't', 'a', 'g', ':'] := rfl
  have e2 : "-->".toList = ['-', '-', '>'] := rfl
  have htrim : TrimSpace ['t', 'a', 'g'] = "tag".toList := by decide
  -- the scan comes out of A at the marker and records it
  obtain ⟨ms, hms⟩ := FindAll_tag_marker A V B hA (by rw [← e2]; exact hV)
  have hmem : ((['t', 'a', 'g'], V) : List Char × List Char) ∈
      FindAllStringSubmatch (A ++ "<!--tag:".toList ++ V ++ "-->".toList ++ B) := by
    rw [e1, e2, hms]
    exact List.mem_append_right ms (List.mem_cons_self _ _)
  -- the loop over the matches stores its trimmed value under the key `tag`
  rw [(parse_fields _ now).2.2, foldl_applyMarker_Tags]
  exact Or.inr ⟨(['t', 'a', 'g'], V), hmem, htrim, rfl⟩

/-- C8 (amended) at a text with a title marker and plain text before the tag
marker and an ordinary comment after it. -/
theorem C8_tag_found_witness :
    openersClosed "<!--title: Hi --><p>intro</p> <".toList = true ∧
    ¬ ("-->".toList <:+: " go:\nlang -".toList) ∧
    TrimSpace " go:\nlang -".toList ∈
      (parse ("<!--title: Hi --><p>intro</p> <".toList ++ "<!--tag:".toList
        ++ " go:\nlang -".toList ++ "-->".toList ++ "<!-- note -->".toList)
        ⟨7, "Mon".toList⟩).Tags :=
  ⟨by decide, by decide, C8_tag_found _ _ _ _ (by decide) (by decide)⟩

/-! ## The snapshot cache -/

theorem hpath_parse (path html : List Char) (now : Clock) (u : List Char) :
    hpath path { parse html now with URI := u } =
      "docs/blog".toList ++ path.drop 3 ++ ".".toList ++ contentHash html := by
  unfold hpath
  have h : ({ parse html now with URI := u } : entry).Hash = (parse html now).Hash := rfl
  rw [h, parse_Hash]

theorem hpath_parse_plain (path html : List Char) (now : Clock) :
    hpath path (parse html now) =
      "docs/blog".toList ++ path.drop 3 ++ ".".toList ++ contentHash html := by
  unfold hpath
  rw [parse_Hash]

theorem resolve_hit (store : Store) (path html : List Char) (now : Clock) (snap : entry)
    (h : store.lookup ("docs/blog".toList ++ path.drop 3 ++ ".".toList ++ contentHash html)
      = some snap) :
    resolve store path html now =
      (Decode snap { parse html now with URI := path.drop 4 }, store) := by
  unfold resolve
  simp only []
  rw [hpath_parse, h]

theorem resolve_miss (store : Store) (path html : List Char) (now : Clock)
    (h : store.lookup ("docs/blog".toList ++ path.drop 3 ++ ".".toList ++ contentHash html)
      = none) :
    resolve store path html now =
      ({ parse html now with URI := path.drop 4 },
        ("docs/blog".toList ++ path.drop 3 ++ ".".toList ++ contentHash html,
          { parse html now with URI := path.drop 4 }) :: store) := by
  unfold resolve
  simp only []
  rw [hpath_parse, h]

/-- C4: resolving a document at time t1 and then the same path with the same
raw text at time t2, against the store the first resolve left, gives an entry
with the TStamp and the Date the first resolve returned: the second resolve
finds a snapshot, takes both fields from it, and writes nothing. -/
theorem C4_rerun_keeps_sort_key (store : Store) (path html : List Char) (t1 t2 : Clock) :
    (resolve (resolve store path html t1).2 path html t2).1.TStamp =
      (resolve store path html t1).1.TStamp ∧
    (resolve (resolve store path html t1).2 path html t2).1.Date =
      (resolve store path html t1).1.Date ∧
    (∃ snap, (resolve store path html t1).2.lookup (hpath path (parse html t2)) = some snap ∧
      (resolve (resolve store path html t1).2 path html t2).1.TStamp = snap.TStamp ∧
      (resolve (resolve store path html t1).2 path html t2).1.Date = snap.Date) ∧
    (resolve (resolve store path html t1).2 path html t2).2 = (resolve store path html t1).2 := by
  rw [hpath_parse_plain]
  cases h : store.lookup ("docs/blog".toList ++ path.drop 3 ++ ".".toList ++ contentHash html) with
  | some snap =>
    rw [resolve_hit store path html t1 snap h]
    simp only []
    rw [resolve_hit store path html t2 snap h]
    exact ⟨rfl, rfl, ⟨snap, h, rfl, rfl⟩, rfl⟩
  | none =>
    rw [resolve_miss store path html t1 h]
    simp only []
    have h2 : List.lookup ("docs/blog".toList ++ path.drop 3 ++ ".".toList ++ contentHash html)
        (("docs/blog".toList ++ path.drop 3 ++ ".".toList ++ contentHash html,
          ({ parse html t1 with URI := path.drop 4 } : entry)) :: store)
        = some { parse html t1 with URI := path.drop 4 } := by
      simp [List.lookup]
    rw [resolve_hit _ path html t2 _ h2]
    exact ⟨rfl, rfl, ⟨_, h2, rfl, rfl⟩, rfl⟩

theorem foldl_setTag_mem (l : List (List Char)) :
    ∀ (tags : List (List Char)) (w : List Char),
      w ∈ l.foldl setTag tags ↔ w ∈ tags ∨ w ∈ l := by
  induction l with
  | nil => intro tags w; simp
  | cons v l ih =>
    intro tags w
    rw [List.foldl_cons, ih, setTag_mem, List.mem_cons]
    tauto

theorem foldl_setTag_nodup (l : List (List Char)) :
    ∀ tags : List (List Char), tags.Nodup → (l.foldl setTag tags).Nodup := by
  induction l with
  | nil => intro tags h; exact h
  | cons v l ih =>
    intro tags h
    rw [List.foldl_cons]
    exact ih _ (setTag_nodup tags v h)

theorem parse_Tags_nodup (html : List Char) (now : Clock) : (parse html now).Tags.Nodup := by
  rw [(parse_fields html now).2.2]
  exact foldl_applyMarker_nodup _ _ List.nodup_nil

theorem resolve_Tags_nodup (store : Store) (path html : List Char) (now : Clock) :
    (resolve store path html now).1.Tags.Nodup := by
  unfold resolve
  simp only []
  split
  · exact foldl_setTag_nodup _ _ (parse_Tags_nodup html now)
  · exact parse_Tags_nodup html now

/-- C5 (as stated, refuted): a first run on the LF text `<!--tag:a\nb-->`
writes the snapshot; a later run on the CRLF form of the same text (same Hash)
hits it, and the resolved entry carries the body of the snapshot, not the text
just read, and a tag set that is not the snapshot's. -/
theorem C5_counterexample :
    (resolve [] "raw/a.html".toList "<!--tag:a\nb-->".toList ⟨1, "Mon".toList⟩).2.lookup
        (hpath "raw/a.html".toList (parse "<!--tag:a\r\nb-->".toList ⟨2, "Tue".toList⟩)) =
      some (resolve [] "raw/a.html".toList "<!--tag:a\nb-->".toList ⟨1, "Mon".toList⟩).1 ∧
    (resolve (resolve [] "raw/a.html".toList "<!--tag:a\nb-->".toList ⟨1, "Mon".toList⟩).2
        "raw/a.html".toList "<!--tag:a\r\nb-->".toList ⟨2, "Tue".toList⟩).1.Content =
      "<!--tag:a\nb-->".toList ∧
    (resolve (resolve [] "raw/a.html".toList "<!--tag:a\nb-->".toList ⟨1, "Mon".toList⟩).2
        "raw/a.html".toList "<!--tag:a\r\nb-->".toList ⟨2, "Tue".toList⟩).1.Content ≠
      "<!--tag:a\r\nb-->".toList ∧
    (resolve [] "raw/a.html".toList "<!--tag:a\nb-->".toList ⟨1, "Mon".toList⟩).1.Tags =
      ["a\nb".toList] ∧
    (resolve (resolve [] "raw/a.html".toList "<!--tag:a\nb-->".toList ⟨1, "Mon".toList⟩).2
        "raw/a.html".toList "<!--tag:a\r\nb-->".toList ⟨2, "Tue".toList⟩).1.Tags =
      ["a\r\nb".toList, "a\nb".toList] := by
  set_option maxRecDepth 1000000 in decide

/-- C5 (amended): on a cache hit the resolved entry takes its body, title,
author, publishDate, sortKey, contentHash and uri from the snapshot record, for
every source text and every snapshot stored at that location; its tag set is
the snapshot's tags together with the tags parsed from the fresh text; the
store is left as it was. -/
theorem C5_cache_hit (store : Store) (path html : List Char) (now : Clock) (snap : entry)
    (h : store.lookup (hpath path (parse html now)) = some snap) :
    (resolve store path html now).1.Content = snap.Content ∧
    (resolve store path html now).1.Title = snap.Title ∧
    (resolve store path html now).1.Author = snap.Author ∧
    (resolve store path html now).1.Date = snap.Date ∧
    (resolve store path html now).1.TStamp = snap.TStamp ∧
    (resolve store path html now).1.Hash = snap.Hash ∧
    (resolve store path html now).1.URI = snap.URI ∧
    (∀ t, t ∈ (resolve store path html now).1.Tags ↔
      t ∈ snap.Tags ∨ t ∈ (parse html now).Tags) ∧
    (resolve store path html now).2 = store := by
  rw [hpath_parse_plain] at h
  rw [resolve_hit store path html now snap h]
  refine ⟨rfl, rfl, rfl, rfl, rfl, rfl, rfl, ?_, rfl⟩
  intro t
  show t ∈ snap.Tags.foldl setTag (parse html now).Tags ↔ _
  rw [foldl_setTag_mem]
  tauto

set_option maxRecDepth 1000000 in
theorem C5_cache_hit_witness :
    sampleStore.lookup
        (hpath "raw/a.html".toList (parse "one\r\ntwo".toList ⟨2, "Tue".toList⟩)) =
      some sampleSnapshot ∧
    (resolve sampleStore "raw/a.html".toList "one\r\ntwo".toList ⟨2, "Tue".toList⟩).1.Content =
      "one\ntwo".toList ∧
    (resolve sampleStore "raw/a.html".toList "one\r\ntwo".toList ⟨2, "Tue".toList⟩).1.TStamp = 1 :=
  ⟨by decide,
    (C5_cache_hit sampleStore "raw/a.html".toList "one\r\ntwo".toList ⟨2, "Tue".toList⟩
      sampleSnapshot (by decide)).1,
    (C5_cache_hit sampleStore "raw/a.html".toList "one\r\ntwo".toList ⟨2, "Tue".toList⟩
      sampleSnapshot (by decide)).2.2.2.2.1⟩

/-! ## The index builder -/

theorem lookup_cons_ite {β : Type} (k a : List Char) (b : β) (m : List (List Char × β)) :
    List.lookup k ((a, b) :: m) = if k = a then some b else List.lookup k m := by
  rw [List.lookup_cons]
  by_cases h : k = a
  · have hb : (k == a) = true := beq_iff_eq.mpr h
    rw [hb, if_pos h]
  · have hb : (k == a) = false := beq_eq_false_iff_ne.mpr h
    rw [hb, if_neg h]

theorem lookup_mapSet (m : Grouping) (k k' : List Char) (v : List entry) :
    (mapSet m k v).lookup k' = if k' = k then some v else m.lookup k' := by
  induction m with
  | nil =>
    unfold mapSet
    rw [lookup_cons_ite]
  | cons p m ih =>
    obtain ⟨a, b⟩ := p
    unfold mapSet
    by_cases ha : a = k
    · rw [if_pos ha, lookup_cons_ite, lookup_cons_ite, ha]
      by_cases h : k' = k
      · rw [if_pos h, if_pos h]
      · rw [if_neg h, if_neg h, if_neg h]
    · rw [if_neg ha, lookup_cons_ite, lookup_cons_ite, ih]
      by_cases h' : k' = a
      · have h : ¬ k' = k := by rw [h']; exact ha
        rw [if_pos h', if_neg h, if_pos h']
      · rw [if_neg h', if_neg h']

theorem lookup_eq_none_iff_keys (m : Grouping) (k : List Char) :
    m.lookup k = none ↔ k ∉ m.map Prod.fst := by
  induction m with
  | nil => simp
  | cons p m ih =>
    obtain ⟨a, b⟩ := p
    rw [lookup_cons_ite]
    by_cases h : k = a
    · simp [h]
    · rw [if_neg h]
      simp only [List.map_cons, List.mem_cons, h, false_or]
      exact ih

theorem keys_mapSet_nodup (m : Grouping) (k : List Char) (v : List entry)
    (h : (m.map Prod.fst).Nodup) : ((mapSet m k v).map Prod.fst).Nodup := by
  induction m with
  | nil => simp [mapSet]
  | cons p m ih =>
    obtain ⟨a, b⟩ := p
    simp only [List.map_cons, List.nodup_cons] at h
    unfold mapSet
    by_cases ha : a = k
    · rw [if_pos ha]
      simp only [List.map_cons, List.nodup_cons]
      rw [← ha]
      exact h
    · rw [if_neg ha]
      simp only [List.map_cons, List.nodup_cons]
      refine ⟨?_, ih h.2⟩
      intro hmem
      have hne : (mapSet m k v).lookup a ≠ none := by
        rw [Ne, lookup_eq_none_iff_keys]
        exact fun hc => hc hmem
      rw [lookup_mapSet, if_neg ha] at hne
      rw [Ne, lookup_eq_none_iff_keys] at hne
      exact hne h.1

theorem addReverse_empty (m : Grouping) (e : entry) : addReverse m [] e = m := by
  simp [addReverse]

theorem lookup_addReverse (m : Grouping) (k k' : List Char) (e : entry) :
    (addReverse m k e).lookup k' =
      if k ≠ [] ∧ k' = k then some ((m.lookup k).getD [] ++ [e]) else m.lookup k' := by
  unfold addReverse
  by_cases hk : k = []
  · simp [hk]
  · rw [if_neg hk]
    cases hl : m.lookup k with
    | none =>
      simp only [lookup_mapSet, Option.getD_none, List.nil_append]
      by_cases h : k' = k
      · simp [h, hk]
      · simp [h]
    | some l =>
      simp only [lookup_mapSet, Option.getD_some]
      by_cases h : k' = k
      · simp [h, hk]
      · simp [h]

theorem addReverse_keys_nodup (m : Grouping) (k : List Char) (e : entry)
    (h : (m.map Prod.fst).Nodup) : ((addReverse m k e).map Prod.fst).Nodup := by
  unfold addReverse
  split
  · exact h
  · split
    · exact keys_mapSet_nodup _ _ _ h
    · exact keys_mapSet_nodup _ _ _ h

theorem lookup_foldl_addReverse (e : entry) (tags : List (List Char)) :
    ∀ (m : Grouping) (k' : List Char), tags.Nodup →
      (tags.foldl (fun m tag => addReverse m tag e) m).lookup k' =
        if k' ≠ [] ∧ k' ∈ tags then some ((m.lookup k').getD [] ++ [e]) else m.lookup k' := by
  induction tags with
  | nil => intro m k' _; simp
  | cons t tags ih =>
    intro m k' hnd
    rw [List.nodup_cons] at hnd
    rw [List.foldl_cons, ih _ _ hnd.2, lookup_addReverse]
    by_cases h0 : k' = []
    · simp [h0]
    · by_cases ht : k' = t
      · have hnot : k' ∉ tags := by rw [ht]; exact hnd.1
        have ht0 : t ≠ [] := by rw [← ht]; exact h0
        simp [h0, ht, hnd.1, ht0]
      · by_cases hin : k' ∈ tags
        · simp [h0, ht, hin]
        · simp [h0, ht, hin]

theorem lookup_foldl_addReverse_perm (e : entry) (tags tags' : List (List Char))
    (hp : tags'.Perm tags) (hnd : tags.Nodup) (m : Grouping) (k : List Char) :
    (tags'.foldl (fun m tag => addReverse m tag e) m).lookup k =
      (tags.foldl (fun m tag => addReverse m tag e) m).lookup k := by
  rw [lookup_foldl_addReverse e tags' m k (hp.nodup_iff.mpr hnd),
    lookup_foldl_addReverse e tags m k hnd]
  simp only [hp.mem_iff]

theorem foldl_addReverse_keys_nodup (e : entry) (tags : List (List Char)) :
    ∀ m : Grouping, (m.map Prod.fst).Nodup →
      ((tags.foldl (fun m tag => addReverse m tag e) m).map Prod.fst).Nodup := by
  induction tags with
  | nil => intro m h; exact h
  | cons t tags ih =>
    intro m h
    rw [List.foldl_cons]
    exact ih _ (addReverse_keys_nodup m t e h)

theorem Indexes_getD (has : entry → List Char → Bool) (m : Grouping) (es : List entry)
    (h : Indexes has m es) (k : List Char) (hk : k ≠ []) :
    (m.lookup k).getD [] = es.filter (fun e => has e k) := by
  rw [h k]
  by_cases hex : ∃ e ∈ es, has e k = true
  · rw [if_pos ⟨hk, hex⟩]
    rfl
  · rw [if_neg (fun hc => hex hc.2)]
    symm
    simp only [Option.getD_none, List.filter_eq_nil_iff]
    intro a ha hc
    exact hex ⟨a, ha, hc⟩

/-- Adding one entry under each of its keys keeps the index exact. -/
theorem Indexes_step (has : entry → List Char → Bool) (m m' : Grouping) (es : List entry)
    (e : entry) (h : Indexes has m es)
    (hm' : ∀ k, m'.lookup k =
      if k ≠ [] ∧ has e k = true then some ((m.lookup k).getD [] ++ [e]) else m.lookup k) :
    Indexes has m' (es ++ [e]) := by
  intro k
  rw [hm' k]
  by_cases hk : k = []
  · rw [if_neg (fun hc => hc.1 hk), if_neg (fun hc => hc.1 hk), h k,
      if_neg (fun hc => hc.1 hk)]
  · by_cases he : has e k = true
    · rw [if_pos ⟨hk, he⟩, Indexes_getD has m es h k hk,
        if_pos ⟨hk, e, by simp, he⟩]
      simp [List.filter_append, he]
    · rw [if_neg (fun hc => he hc.2), h k]
      have hf : (es ++ [e]).filter (fun e => has e k) = es.filter (fun e => has e k) := by
        simp [List.filter_append, he]
      rw [hf]
      by_cases hex : ∃ e' ∈ es, has e' k = true
      · obtain ⟨e', he', hh⟩ := hex
        rw [if_pos ⟨hk, e', he', hh⟩, if_pos ⟨hk, e', by simp [he'], hh⟩]
      · rw [if_neg (fun hc => hex hc.2), if_neg]
        rintro ⟨_, e', he', hh⟩
        rcases List.mem_append.mp he' with h1 | h1
        · exact hex ⟨e', h1, hh⟩
        · rw [List.mem_singleton] at h1
          rw [h1] at hh
          exact he hh

theorem visit_inv (st : WalkState) (f : SourceFile) (h : WalkInv st) : WalkInv (visit st f) := by
  unfold visit
  split
  · exact h
  · obtain ⟨hT, hA, hTk, hAk⟩ := h
    refine ⟨?_, ?_, ?_, ?_⟩
    · apply Indexes_step _ _ _ _ _ hT
      intro k
      simp only []
      rw [lookup_foldl_addReverse _ _ _ _ (resolve_Tags_nodup _ _ _ _)]
      simp only [decide_eq_true_eq]
    · apply Indexes_step _ _ _ _ _ hA
      intro k
      simp only []
      rw [lookup_addReverse]
      simp only [decide_eq_true_eq]
      by_cases hk : (resolve st.store f.path f.html f.now).1.Author = k
      · by_cases h0 : k = []
        · rw [if_neg (fun hc => hc.1 (hk.trans h0)), if_neg (fun hc => hc.1 h0)]
        · rw [if_pos ⟨fun hc => h0 (hk.symm.trans hc), hk.symm⟩, if_pos ⟨h0, hk⟩, hk]
      · rw [if_neg (fun hc => hk hc.2.symm), if_neg (fun hc => hk hc.2)]
    · exact foldl_addReverse_keys_nodup _ _ _ hTk
    · exact addReverse_keys_nodup _ _ _ hAk

theorem walk_inv (store : Store) (files : List SourceFile) : WalkInv (walk store files) := by
  have hgen : ∀ (fs : List SourceFile) (st : WalkState), WalkInv st →
      WalkInv (fs.foldl visit st) := by
    intro fs
    induction fs with
    | nil => intro st h; exact h
    | cons f fs ih => intro st h; exact ih _ (visit_inv st f h)
  apply hgen
  refine ⟨?_, ?_, ?_, ?_⟩
  · intro k; simp
  · intro k; simp
  · simp
  · simp

theorem Indexes_keys (has : entry → List Char → Bool) (m : Grouping) (es : List entry)
    (h : Indexes has m es) (k : List Char) :
    k ∈ m.map Prod.fst ↔ k ≠ [] ∧ ∃ e ∈ es, has e k = true := by
  constructor
  · intro hk
    by_contra hc
    have hn := h k
    rw [if_neg hc, lookup_eq_none_iff_keys] at hn
    exact hn hk
  · intro hc
    by_contra hk
    have hn := h k
    rw [if_pos hc, (lookup_eq_none_iff_keys m k).mpr hk] at hn
    exact Option.noConfusion hn

theorem foldl_visit_entries (files : List SourceFile) :
    ∀ st : WalkState, (files.foldl visit st).entries =
      st.entries ++ resolvedEntries st.store files ∧
      (files.foldl visit st).entries.length =
        st.entries.length +
          (files.filter (fun f => !(f.IsDir || !HasSuffix f.path ".html".toList))).length := by
  induction files with
  | nil => intro st; simp [resolvedEntries]
  | cons f fs ih =>
    intro st
    rw [List.foldl_cons]
    cases hskip : (f.IsDir || !HasSuffix f.path ".html".toList) with
    | true =>
      have hv : visit st f = st := by
        unfold visit
        rw [if_pos hskip]
      have hr : resolvedEntries st.store (f :: fs) = resolvedEntries st.store fs := by
        rw [resolvedEntries, if_pos hskip]
      have hf : List.filter (fun g : SourceFile => !(g.IsDir || !HasSuffix g.path ".html".toList))
          (f :: fs) =
          List.filter (fun g : SourceFile => !(g.IsDir || !HasSuffix g.path ".html".toList)) fs := by
        simp only [List.filter_cons, hskip, Bool.not_true, Bool.false_eq_true, if_false]
      rw [hv, hr, hf]
      exact ih st
    | false =>
      have hne : ¬ ((f.IsDir || !HasSuffix f.path ".html".toList) = true) := by
        rw [hskip]; exact Bool.false_ne_true
      have hv : visit st f =
          { entries := st.entries ++ [(resolve st.store f.path f.html f.now).1]
            tagsReverse := (resolve st.store f.path f.html f.now).1.Tags.foldl
              (fun m tag => addReverse m tag (resolve st.store f.path f.html f.now).1)
              st.tagsReverse
            authorsReverse := addReverse st.authorsReverse
              (resolve st.store f.path f.html f.now).1.Author
              (resolve st.store f.path f.html f.now).1
            store := (resolve st.store f.path f.html f.now).2 } := by
        unfold visit
        rw [if_neg hne]
      have hr : resolvedEntries st.store (f :: fs) =
          (resolve st.store f.path f.html f.now).1 ::
            resolvedEntries (resolve st.store f.path f.html f.now).2 fs := by
        rw [resolvedEntries, if_neg hne]
      have hf : List.filter (fun g : SourceFile => !(g.IsDir || !HasSuffix g.path ".html".toList))
          (f :: fs) =
          f :: List.filter
            (fun g : SourceFile => !(g.IsDir || !HasSuffix g.path ".html".toList)) fs := by
        simp only [List.filter_cons, hskip, Bool.not_false, if_true]
      obtain ⟨h1, h2⟩ := ih (visit st f)
      constructor
      · rw [h1, hr, hv]
        simp only [List.append_assoc, List.singleton_append]
      · rw [h2, hv, hf]
        simp only [List.length_append, List.length_cons, List.length_nil]
        omega

set_option maxRecDepth 1000000 in
/-- C6: the walk collects one entry per non-directory ".html" file, in
discovery order, each resolved against the store the earlier files left; the
keys of the tag grouping are exactly the non-empty tags carried by at least
one collected entry, tag t maps to the entries whose tag set contains t, each
once and in discovery order; the author grouping maps each non-empty author to
that author's entries in discovery order; adding under the empty key changes
nothing, so the empty string is never a key, and an entry whose only tag is
empty (`<!--tag: -->`) enters no tag list.  On the sample tree the tag `go`
maps to both articles, `lean` to the second, and the empty tag to none. -/
theorem C6_groupings (store : Store) (files : List SourceFile) :
    (walk store files).entries = resolvedEntries store files ∧
    (walk store files).entries.length =
      (files.filter (fun f => !(f.IsDir || !HasSuffix f.path ".html".toList))).length ∧
    (∀ t : List Char, t ∈ (walk store files).tagsReverse.map Prod.fst ↔
      t ≠ [] ∧ ∃ e ∈ resolvedEntries store files, t ∈ e.Tags) ∧
    (∀ t : List Char, t ∈ (walk store files).tagsReverse.map Prod.fst →
      (walk store files).tagsReverse.lookup t =
        some ((resolvedEntries store files).filter (fun e => decide (t ∈ e.Tags)))) ∧
    ((walk store files).tagsReverse.map Prod.fst).Nodup ∧
    (∀ a : List Char, a ∈ (walk store files).authorsReverse.map Prod.fst ↔
      a ≠ [] ∧ ∃ e ∈ resolvedEntries store files, e.Author = a) ∧
    (∀ a : List Char, a ∈ (walk store files).authorsReverse.map Prod.fst →
      (walk store files).authorsReverse.lookup a =
        some ((resolvedEntries store files).filter (fun e => decide (e.Author = a)))) ∧
    ((walk store files).authorsReverse.map Prod.fst).Nodup ∧
    (∀ (m : Grouping) (e : entry), addReverse m [] e = m) ∧
    [] ∉ (walk store files).tagsReverse.map Prod.fst ∧
    [] ∉ (walk store files).authorsReverse.map Prod.fst ∧
    (walk [] [⟨"raw/a.html".toList, false, "<!--tag: -->x".toList, ⟨1, []⟩⟩]).tagsReverse = [] ∧
    (walk [] sampleFiles).entries.map (fun e => e.URI) = ["a.html".toList, "b.html".toList] ∧
    groupingURIs (walk [] sampleFiles).tagsReverse =
      [("go".toList, ["a.html".toList, "b.html".toList]),
       ("lean".toList, ["b.html".toList])] ∧
    groupingURIs (walk [] sampleFiles).authorsReverse =
      [("admin".toList, ["a.html".toList]), ("bob".toList, ["b.html".toList])] := by
  obtain ⟨hT, hA, hTk, hAk⟩ := walk_inv store files
  have hE : (walk store files).entries = resolvedEntries store files := by
    have h := (foldl_visit_entries files
      { entries := [], tagsReverse := [], authorsReverse := [], store := store }).1
    simpa [walk] using h
  have hL := (foldl_visit_entries files
      { entries := [], tagsReverse := [], authorsReverse := [], store := store }).2
  have kT := Indexes_keys _ _ _ hT
  have kA := Indexes_keys _ _ _ hA
  simp only [decide_eq_true_eq, hE] at kT kA
  refine ⟨hE, ?_, kT, ?_, hTk, kA, ?_, hAk, addReverse_empty, ?_, ?_, ?_, ?_, ?_, ?_⟩
  · simpa [walk] using hL
  · intro t ht
    have := hT t
    simp only [decide_eq_true_eq, hE] at this
    rw [this, if_pos ((kT t).mp ht)]
  · intro a ha
    have := hA a
    simp only [decide_eq_true_eq, hE] at this
    rw [this, if_pos ((kA a).mp ha)]
  · intro hc
    exact ((kT []).mp hc).1 rfl
  · intro hc
    exact ((kA []).mp hc).1 rfl
  · decide
  · decide
  · decide
  · decide

/-- C10 at the article page `docs/blog/a.html` with one entry and at the
listing directory `docs/` with one entry. -/
theorem C10_destination_witness :
    HasSuffix "docs/blog/a.html".toList ".html".toList = true ∧
    (∃ p : tPayload,
      (renderPages [] [sampleSnapshot] "docs/blog/a.html".toList "Old".toList).writes =
        [("docs/blog/a.html".toList, p)] ∧
      p.TotalPages = 1 ∧ p.CurPage = 1 ∧ p.Articles = [sampleSnapshot] ∧
      p.ArticleEntered = true) ∧
    (renderPages [] [sampleSnapshot] "docs/".toList "Blog".toList).writes.map
        (fun w => (w.1, w.2.ArticleEntered)) = [("docs/index.html".toList, false)] :=
  ⟨by decide,
    (C10_destination [] "docs/blog/a.html".toList "Old".toList).1 (by decide) sampleSnapshot,
    by decide⟩

end Blog
